import Mathlib

/-!
# gandalf: SSH command parsing, access control and repository validation

A shallow embedding of `bin/gandalf.go` and `repository/repository.go`.

Go strings are modelled as lists of characters (`Str`), the runes that the
`regexp` package reads from them (a byte that is not valid UTF-8 is read as
U+FFFD, which belongs to none of the classes used here).  The two regular
expressions of the source are transcribed into a small regular-expression
syntax tree whose matcher follows the leftmost-first (backtracking priority)
discipline of Go's `regexp` package.
-/

namespace Gandalf

/-- Go `string`, seen as the sequence of its runes. -/
abbrev Str := List Char

/-- The ASCII apostrophe (U+0027). -/
def quote : Char := Char.ofNat 39

/-! ## Character classes -/

/-- Range `lo-hi` of a bracket expression. -/
def inRange (lo hi c : Char) : Bool :=
  decide (lo.toNat ≤ c.toNat) && decide (c.toNat ≤ hi.toNat)

/-- Perl class `\w` as implemented by Go: `[0-9A-Za-z_]`. -/
def isWord (c : Char) : Bool :=
  inRange '0' '9' c || inRange 'A' 'Z' c || inRange 'a' 'z' c || c == '_'

/-- Class `[a-z-]`. -/
def clsLowerDash (c : Char) : Bool := inRange 'a' 'z' c || c == '-'

/-- Class `[\w-+@]`: the first character of a namespace. -/
def clsNsHead (c : Char) : Bool := isWord c || c == '-' || c == '+' || c == '@'

/-- Class `[\w-+.@]`: the further characters of a namespace. -/
def clsNsTail (c : Char) : Bool :=
  isWord c || c == '-' || c == '+' || c == '.' || c == '@'

/-- Class `[\w-]`: the characters of a repository name. -/
def clsName (c : Char) : Bool := isWord c || c == '-'

/-! ## Regular expressions -/

/-- Syntax of the regular expressions used by the program.  Repetition is
applied to character classes only, as in both patterns of the source. -/
inductive Regex where
  | lit (c : Char)
  | cls (p : Char → Bool)
  | seq (a b : Regex)
  | opt (a : Regex)
  | star (p : Char → Bool)
  | plus (p : Char → Bool)
  | group (i : Nat) (a : Regex)
  | bol
  | eol

/-- Number of capturing groups (`Regexp.NumSubexp`). -/
def Regex.numSubexp : Regex → Nat
  | .seq a b => a.numSubexp + b.numSubexp
  | .opt a => a.numSubexp
  | .group _ a => a.numSubexp + 1
  | _ => 0

/-- Text of the capturing groups; a group that did not take part is empty. -/
abbrev Caps := Nat → Str

/-- No group has matched yet. -/
def noCaps : Caps := fun _ => []

/-- Record the text of group `i`. -/
def setCap (caps : Caps) (i : Nat) (v : Str) : Caps :=
  fun j => if j = i then v else caps j

/-- The part of `s` read so far when `t` is what remains of it. -/
def consumed (s t : Str) : Str := s.take (s.length - t.length)

/-- Greedy repetition of a character class: the longest run is tried first,
shorter runs on failure of the continuation. -/
def starLoop {α : Type} (p : Char → Bool) (k : Str → Option α) : Str → Option α
  | [] => k []
  | c :: cs =>
    if p c then
      match starLoop p k cs with
      | some r => some r
      | none => k (c :: cs)
    else k (c :: cs)

/-- Backtracking matcher in continuation-passing style.  `n` is the length of
the whole text (used by `^`), `s` the unread part of the text. -/
def matchRe {α : Type} (n : Nat) : Regex → Str → Caps → (Str → Caps → Option α) → Option α
  | .lit c, s, caps, k =>
    match s with
    | d :: t => if d = c then k t caps else none
    | [] => none
  | .cls p, s, caps, k =>
    match s with
    | d :: t => if p d then k t caps else none
    | [] => none
  | .seq a b, s, caps, k => matchRe n a s caps (fun t c => matchRe n b t c k)
  | .opt a, s, caps, k =>
    match matchRe n a s caps k with
    | some r => some r
    | none => k s caps
  | .star p, s, caps, k => starLoop p (fun t => k t caps) s
  | .plus p, s, caps, k =>
    match s with
    | d :: t => if p d then starLoop p (fun t => k t caps) t else none
    | [] => none
  | .group i a, s, caps, k => matchRe n a s caps (fun t c => k t (setCap c i (consumed s t)))
  | .bol, s, caps, k => if s.length = n then k s caps else none
  | .eol, s, caps, k => if s.length = 0 then k s caps else none

/-- Leftmost search: the match is attempted at every position of the text in
turn; the result is the start of the match, what follows it and the groups. -/
def searchAt (re : Regex) (n : Nat) : Str → Option (Str × Str × Caps)
  | [] =>
    match matchRe n re [] noCaps (fun t c => some (t, c)) with
    | some (t, c) => some ([], t, c)
    | none => none
  | d :: s =>
    match matchRe n re (d :: s) noCaps (fun t c => some (t, c)) with
    | some (t, c) => some (d :: s, t, c)
    | none => searchAt re n s

/-- The method `Regexp.FindStringSubmatch`: the empty (nil) slice when there is no
match, otherwise the matched text followed by the text of each group. -/
def FindStringSubmatch (re : Regex) (s : Str) : List Str :=
  match searchAt re s.length s with
  | none => []
  | some (st, t, c) => consumed st t :: (List.range re.numSubexp).map (fun i => c (i + 1))

/-- The function `regexp.Match`: whether the text contains a match. -/
def regexpMatch (re : Regex) (s : Str) : Bool :=
  (searchAt re s.length s).isSome

/-! ## Errors and outcomes -/

/-- Error values returned by the program. -/
inductive Error where
  /-- The error of `parseGitCommand` ("You've tried to execute some weird command ..."). -/
  | weirdCommand
  /-- The error of `formatCommand` ("Malformed git command"). -/
  | malformedGitCommand
  /-- An `InvalidRepositoryError` with its message. -/
  | invalidRepository (message : String)
  /-- The value `ErrRepositoryAlreadyExists`. -/
  | repositoryAlreadyExists
  /-- The value `ErrRepositoryNotFound`. -/
  | repositoryNotFound
  /-- An error produced outside the program (configuration, remote host). -/
  | external (code : Nat)
  /-- The error of `getUserOr404` ("User <name> not found"). -/
  | userNotFound (name : Str)
  deriving DecidableEq, Repr

/-- How a Go call ends: it returns a value or the goroutine panics. -/
inductive Outcome (α : Type) where
  | returned (v : α)
  | panicked
  deriving DecidableEq, Repr

/-! ## `bin/gandalf.go` -/

/-- The type `user.User`. -/
structure User where
  Name : Str
  deriving DecidableEq, Repr

/-- The type `repository.Repository`. -/
structure Repository where
  Name : Str
  Users : List Str
  ReadOnlyUsers : List Str
  IsPublic : Bool
  roURL : Str
  rwURL : Str
  deriving DecidableEq, Repr

/-- Function `hasWritePermission`: the loop over `r.Users` returns at the first equal name. -/
def hasWritePermission (u : User) (r : Repository) : Bool :=
  r.Users.any (fun userName => u.Name == userName)

/-- Function `hasReadPermission`. -/
def hasReadPermission (u : User) (r : Repository) : Bool :=
  if r.IsPublic then true
  else if r.Users.any (fun userName => u.Name == userName) then true
  else if r.ReadOnlyUsers.any (fun userName => u.Name == userName) then true
  else false

/-- The sub-pattern `(git-[a-z-]+)`. -/
def reCommand : Regex :=
  .group 1 (.seq (.lit 'g') (.seq (.lit 'i') (.seq (.lit 't') (.seq (.lit '-') (.plus clsLowerDash)))))

/-- The sub-pattern `([\w-+@][\w-+.@]*/)`. -/
def reNamespace : Regex :=
  .group 2 (.seq (.cls clsNsHead) (.seq (.star clsNsTail) (.lit '/')))

/-- The sub-pattern `\.git'`. -/
def reDotGit : Regex :=
  .seq (.lit '.') (.seq (.lit 'g') (.seq (.lit 'i') (.seq (.lit 't') (.lit quote))))

/-- The pattern of `parseGitCommand`:
`(git-[a-z-]+) '/?([\w-+@][\w-+.@]*/)?([\w-]+)\.git'`. -/
def gitCommandRe : Regex :=
  .seq reCommand (.seq (.lit ' ') (.seq (.lit quote) (.seq (.opt (.lit '/'))
    (.seq (.opt reNamespace) (.seq (.group 3 (.plus clsName)) reDotGit)))))

/-- Function `parseGitCommand`; `sshCommand` is the value of the environment variable
`SSH_ORIGINAL_COMMAND`.  The result is `(command, name, err)`. -/
def parseGitCommand (sshCommand : Str) : Str × Str × Option Error :=
  let m := FindStringSubmatch gitCommandRe sshCommand
  if m.length ≠ 4 then ([], [], some .weirdCommand)
  else (m.getD 1 [], m.getD 2 [] ++ m.getD 3 [], none)

/-- The function `strings.Split` with a one-character separator. -/
def split (sep : Char) : Str → List Str
  | [] => [[]]
  | c :: cs =>
    if c = sep then [] :: split sep cs
    else
      match split sep cs with
      | [] => [[c]]
      | h :: t => (c :: h) :: t

/-- Function `formatCommand`.  `bareLocation` is the outcome of
`config.GetString("git:bare:location")` and `pathJoin` the library function `path.Join`. -/
def formatCommand (bareLocation : Except Error Str) (pathJoin : Str → Str → Str)
    (sshCommand : Str) : List Str × Option Error :=
  match bareLocation with
  | .error err => ([], some err)
  | .ok p =>
    match parseGitCommand sshCommand with
    | (_, _, some err) => ([], some err)
    | (_, repoName, none) =>
      let repoName := repoName ++ ".git".toList
      let cmdList := split ' ' sshCommand
      if cmdList.length ≠ 2 then ([], some .malformedGitCommand)
      else (cmdList.set 1 (pathJoin p repoName), none)

/-! ## `repository/repository.go` -/

/-- The pattern of `Repository.isValid`: `^([\w-+@][\w-+.@]*/)?[\w-]+$`. -/
def repoNameRe : Regex :=
  .seq .bol (.seq (.opt (.group 1 (.seq (.cls clsNsHead) (.seq (.star clsNsTail) (.lit '/')))))
    (.seq (.plus clsName) .eol))

/-- Method `Repository.isValid`. -/
def Repository.isValid (r : Repository) : Bool × Option Error :=
  let m := regexpMatch repoNameRe r.Name
  if !m then (false, some (.invalidRepository "repository name is not valid"))
  else if r.Users.length = 0 then
    (false, some (.invalidRepository "repository should have at least one user"))
  else (true, none)

/-- A request sent towards the remote host. -/
inductive Call where
  /-- A client was built by `bitbucketapi.Client`. -/
  | client
  /-- The request `DefaultApi.CreateRepository(name)`. -/
  | createRepository (name : Str)
  deriving DecidableEq, Repr

/-- The remote host as far as `New` observes it. -/
structure Remote where
  /-- Error (if any) answered to `CreateRepository`. -/
  createRepository : Str → Option Error
  /-- The predicate `mgo.IsDup`. -/
  isDup : Error → Bool

/-- Function `bitbucketapi.Client`: it builds a client and never fails. -/
def Client (trace : List Call) : Option Error × List Call :=
  (none, trace ++ [.client])

/-- Function `New`.  The result is `(repository, err)` with the list of the requests
made, in order. -/
def New (remote : Remote) (name : Str) (users readOnlyUsers : List Str) (isPublic : Bool) :
    (Option Repository × Option Error) × List Call :=
  let r : Repository :=
    { Name := name, Users := users, ReadOnlyUsers := readOnlyUsers, IsPublic := isPublic,
      roURL := [], rwURL := [] }
  match r.isValid with
  | (false, err) => ((some r, err), [])
  | (true, _) =>
    match Client [] with
    | (some err, trace) => ((none, some err), trace)
    | (none, trace) =>
      match remote.createRepository r.Name with
      | some err =>
        if remote.isDup err then ((none, some .repositoryAlreadyExists), trace ++ [.createRepository r.Name])
        else ((none, some err), trace ++ [.createRepository r.Name])
      | none => ((some r, none), trace ++ [.createRepository r.Name])

/-- The type `mgo.ChangeInfo`, of which only `Matched` is read. -/
structure ChangeInfo where
  Matched : Nat
  deriving DecidableEq, Repr

/-- Function `GrantAccess`.  The two update requests are commented out in the source, so
`info` keeps the nil value of its declaration and `err` the value left by `Client`. -/
def GrantAccess (_rNames _uNames : List Str) (readOnly : Bool) : Outcome (Option Error) :=
  match Client [] with
  | (some err, _) => .returned (some err)
  | (none, _) =>
    let info : Option ChangeInfo := none
    let err : Option Error := if readOnly then none else none
    match err with
    | some e => .returned (some e)
    | none =>
      match info with
      | none => .panicked
      | some i => if i.Matched = 0 then .returned (some .repositoryNotFound) else .returned none

/-- Function `RevokeAccess`, of the same shape as `GrantAccess`. -/
def RevokeAccess (_rNames _uNames : List Str) (readOnly : Bool) : Outcome (Option Error) :=
  match Client [] with
  | (some err, _) => .returned (some err)
  | (none, _) =>
    let info : Option ChangeInfo := none
    let err : Option Error := if readOnly then none else none
    match err with
    | some e => .returned (some e)
    | none =>
      match info with
      | none => .panicked
      | some i => if i.Matched = 0 then .returned (some .repositoryNotFound) else .returned none

/-! ## `repository.Get` -/

/-- The value `mgo.ErrNotFound` of the mgo library: the not-found failure that `Get`
compares its error with.  It is an error value of its own, produced outside the program. -/
def mgoErrNotFound : Error := .external 0

/-- Modelled from the spec: an entry of the clone-link list of the remote response (a type
of the client library `go-bitbucket-v1`, which is not under src/); `Get` reads `Href`. -/
structure CloneLink where
  Href : Str
  Name : Str
  deriving DecidableEq, Repr

/-- Modelled from the spec: the decoded remote response `bitbucketv1.Repository` (a type of
the client library, which is not under src/), with the fields that `Get` reads; `Clone`
stands for `Links.Clone`. -/
structure BitbucketRepository where
  Name : Str
  Public : Bool
  Clone : List CloneLink
  deriving DecidableEq, Repr

/-- The remote host and the decoder of the client library as `Get` observes them. -/
structure RepositoryHost where
  /-- Outcome of `DefaultApi.GetRepository(project, name)`: the raw response or an error. -/
  getRepository : Str → Str → Except Error Str
  /-- The function `bitbucketv1.GetRepositoryResponse`, which decodes a raw response. -/
  getRepositoryResponse : Str → Except Error BitbucketRepository

/-- The zero value of `Repository` (`var r Repository`). -/
def zeroRepository : Repository :=
  { Name := [], Users := [], ReadOnlyUsers := [], IsPublic := false, roURL := [], rwURL := [] }

/-- Function `Get`.  Indexing `repo.Links.Clone` past its length panics. -/
def Get (host : RepositoryHost) (name : Str) : Outcome (Repository × Option Error) :=
  let r := zeroRepository
  match Client [] with
  | (some err, _) => .returned (r, some err)
  | (none, _) =>
    match host.getRepository "INFRA".toList name with
    | .error err => .returned (r, some err)
    | .ok response =>
      match host.getRepositoryResponse response with
      | .error err => .returned (r, some err)
      | .ok repo =>
        let err : Option Error := none
        let r := { r with Name := repo.Name }
        let r := { r with IsPublic := repo.Public }
        match repo.Clone[0]? with
        | none => .panicked
        | some link0 =>
          let r := { r with roURL := link0.Href }
          match repo.Clone[1]? with
          | none => .panicked
          | some link1 =>
            let r := { r with rwURL := link1.Href }
            if err = some mgoErrNotFound then .returned (r, some .repositoryNotFound)
            else .returned (r, err)

/-! ## `api/utils.go` -/

/-- The remote host as `getUserOr404` observes it. -/
structure UserHost where
  /-- Error (if any) answered to `DefaultApi.GetUser(name)`. -/
  getUser : Str → Option Error
  /-- The method `Error()` of an error value: its text. -/
  errorText : Error → Str

/-- Function `getUserOr404`.  The variable `u` is declared with its zero value and is
never assigned. -/
def getUserOr404 (host : UserHost) (name : Str) : User × Option Error :=
  let u : User := { Name := [] }
  match Client [] with
  | (some err, _) => (u, some err)
  | (none, _) =>
    match host.getUser name with
    | some err =>
      if host.errorText err = "not found".toList then (u, some (.userNotFound name))
      else (u, none)
    | none => (u, none)

/-! ## Temporary clones (`BitBucketContentRetriever`) -/

/-- Outcome of `os.Stat` on a path. -/
inductive StatResult where
  /-- The path exists (`err == nil`). -/
  | found
  /-- The path does not exist (`os.IsNotExist(err)`). -/
  | notExist
  /-- Another failure, with its error. -/
  | failed (err : Error)
  deriving DecidableEq, Repr

/-- The filesystem, seen through `os.Stat`. -/
structure Fs where
  stat : Str → StatResult

/-- Function `exists`: whether the given file or directory exists. -/
def exists_ (fs : Fs) (path : Str) : Bool × Option Error :=
  match fs.stat path with
  | .found => (true, none)
  | .notExist => (false, none)
  | .failed err => (false, some err)

/-- The filesystem after the directory `path` has been created. -/
def Fs.mkdir (fs : Fs) (path : Str) : Fs :=
  { stat := fun p => if p = path then .found else fs.stat p }

/-- The library function `os.RemoveAll`, when the removal succeeds: `path` and all that
lies under it are gone. -/
def RemoveAll (path : Str) (fs : Fs) : Fs :=
  { stat := fun p =>
      if decide (p = path) || (path ++ ['/']).isPrefixOf p then .notExist else fs.stat p }

/-- The type `exec.Cmd`, with the fields that the program sets. -/
structure Cmd where
  Path : Str
  Args : List Str
  Env : Option (List Str)
  Dir : Str
  deriving DecidableEq, Repr

/-- The library function `exec.Command`. -/
def Command (name : Str) (args : List Str) : Cmd :=
  { Path := name, Args := name :: args, Env := none, Dir := [] }

/-- Outcome of the method `Cmd.CombinedOutput`. -/
inductive ProcOutcome where
  /-- No process could be started (for instance the working directory is a regular
  file): the call returns no output and an error, and the filesystem is untouched. -/
  | notStarted (err : Error)
  /-- The process ran: its output, its error when it exits non-zero, and the filesystem
  that it leaves. -/
  | exited (out : Str) (err : Option Error) (fs : Fs)

/-- The filesystem after a call of `CombinedOutput` made on the filesystem `fs`. -/
def ProcOutcome.fsAfter (o : ProcOutcome) (fs : Fs) : Fs :=
  match o with
  | .notStarted _ => fs
  | .exited _ _ fs1 => fs1

/-- The operating system as the clone operations observe it. -/
structure Sys where
  /-- The function `exec.LookPath`. -/
  lookPath : Str → Except Error Str
  /-- The method `Cmd.CombinedOutput` on a command and a filesystem. -/
  combinedOutput : Cmd → Fs → ProcOutcome
  /-- The function `ioutil.TempDir`: the name of the directory it creates, or an error. -/
  tempDir : Str → Str → Fs → Except Error Str
  /-- The function `os.Environ`. -/
  environ : List Str

/-- The four operations on a clone. -/
inductive CloneOp where
  | checkout
  | addAll
  | commit
  | push
  deriving DecidableEq, Repr

/-- Errors built with `fmt.Errorf` by the clone operations, by their kind and operands. -/
inductive CloneError where
  /-- The message that ends with the error of `exec.LookPath`. -/
  | gitNotFound (op : CloneOp) (cloneDir : Str) (cause : Error)
  /-- The message that ends with "(Clone does not exist).". -/
  | cloneDoesNotExist (op : CloneOp) (cloneDir : Str)
  /-- The message that ends with the error and output of the git process. -/
  | gitFailed (op : CloneOp) (cloneDir : Str) (cause : Error) (out : Str)
  /-- The message of `TempClone` that ends with the error of `exec.LookPath`. -/
  | tempCloneGit (repo : Str) (cause : Error)
  /-- The message of `TempClone` that ends with "(Repository does not exist).". -/
  | tempCloneNoRepository (repo : Str)
  /-- The message of `TempClone` that ends with "(Could not create temporary directory).". -/
  | tempCloneNoTempDir (repo : Str)
  deriving DecidableEq, Repr

/-- The type `GitUser`. -/
structure GitUser where
  Name : Str
  Email : Str
  Date : Str
  deriving DecidableEq, Repr

/-- Method `GitUser.String`: `Name <Email>`. -/
def GitUser.String (gu : GitUser) : Str :=
  gu.Name ++ " <".toList ++ gu.Email ++ ">".toList

/-- What a clone operation leaves: its error, the filesystem and the processes that it
started. -/
structure OpResult where
  err : Option CloneError
  fs : Fs
  ran : List Cmd

/-- The common end of the four operations: `out, err := cmd.CombinedOutput()` and the
wrapping of a failure, with its error and output. -/
def runGit (sys : Sys) (fs : Fs) (op : CloneOp) (cloneDir : Str) (cmd : Cmd) : OpResult :=
  match sys.combinedOutput cmd fs with
  | .notStarted err => { err := some (.gitFailed op cloneDir err []), fs := fs, ran := [] }
  | .exited out (some err) fs1 =>
    { err := some (.gitFailed op cloneDir err out), fs := fs1, ran := [cmd] }
  | .exited _ none fs1 => { err := none, fs := fs1, ran := [cmd] }

/-- The command that `Checkout` builds: `git checkout [-b] <branch>` in the clone. -/
def checkoutCmd (gitPath cloneDir branch : Str) (isNew : Bool) : Cmd :=
  let cmd := Command gitPath ["checkout".toList]
  let cmd := if isNew then { cmd with Args := cmd.Args ++ ["-b".toList] } else cmd
  let cmd := { cmd with Args := cmd.Args ++ [branch] }
  { cmd with Dir := cloneDir }

/-- Method `Checkout`. -/
def Checkout (sys : Sys) (fs : Fs) (cloneDir branch : Str) (isNew : Bool) : OpResult :=
  match sys.lookPath "git".toList with
  | .error err => { err := some (.gitNotFound .checkout cloneDir err), fs := fs, ran := [] }
  | .ok gitPath =>
    match exists_ fs cloneDir with
    | (cloneExists, err) =>
      if err.isSome || !cloneExists then
        { err := some (.cloneDoesNotExist .checkout cloneDir), fs := fs, ran := [] }
      else runGit sys fs .checkout cloneDir (checkoutCmd gitPath cloneDir branch isNew)

/-- The command that `AddAll` builds: `git add --all` in the clone. -/
def addAllCmd (gitPath cloneDir : Str) : Cmd :=
  let cmd := Command gitPath ["add".toList, "--all".toList]
  { cmd with Dir := cloneDir }

/-- Method `AddAll`. -/
def AddAll (sys : Sys) (fs : Fs) (cloneDir : Str) : OpResult :=
  match sys.lookPath "git".toList with
  | .error err => { err := some (.gitNotFound .addAll cloneDir err), fs := fs, ran := [] }
  | .ok gitPath =>
    match exists_ fs cloneDir with
    | (cloneExists, err) =>
      if err.isSome || !cloneExists then
        { err := some (.cloneDoesNotExist .addAll cloneDir), fs := fs, ran := [] }
      else runGit sys fs .addAll cloneDir (addAllCmd gitPath cloneDir)

/-- The command that `Commit` builds, with the committer passed in the environment. -/
def commitCmd (environ : List Str) (gitPath cloneDir message : Str)
    (author committer : GitUser) : Cmd :=
  let cmd := Command gitPath ["commit".toList, "-m".toList, message, "--author".toList,
    author.String, "--allow-empty-message".toList]
  let env := environ
  let env := env ++ ["GIT_COMMITTER_NAME=".toList ++ committer.Name]
  let env := env ++ ["GIT_COMMITTER_EMAIL=".toList ++ committer.Email]
  let cmd := { cmd with Env := some env }
  { cmd with Dir := cloneDir }

/-- Method `Commit`. -/
def Commit (sys : Sys) (fs : Fs) (cloneDir message : Str) (author committer : GitUser) :
    OpResult :=
  match sys.lookPath "git".toList with
  | .error err => { err := some (.gitNotFound .commit cloneDir err), fs := fs, ran := [] }
  | .ok gitPath =>
    match exists_ fs cloneDir with
    | (cloneExists, err) =>
      if err.isSome || !cloneExists then
        { err := some (.cloneDoesNotExist .commit cloneDir), fs := fs, ran := [] }
      else
        runGit sys fs .commit cloneDir
          (commitCmd sys.environ gitPath cloneDir message author committer)

/-- The command that `Push` builds: `git push origin <branch>` in the clone. -/
def pushCmd (gitPath cloneDir branch : Str) : Cmd :=
  let cmd := Command gitPath ["push".toList, "origin".toList, branch]
  { cmd with Dir := cloneDir }

/-- Method `Push`. -/
def Push (sys : Sys) (fs : Fs) (cloneDir branch : Str) : OpResult :=
  match sys.lookPath "git".toList with
  | .error err => { err := some (.gitNotFound .push cloneDir err), fs := fs, ran := [] }
  | .ok gitPath =>
    match exists_ fs cloneDir with
    | (cloneExists, err) =>
      if err.isSome || !cloneExists then
        { err := some (.cloneDoesNotExist .push cloneDir), fs := fs, ran := [] }
      else runGit sys fs .push cloneDir (pushCmd gitPath cloneDir branch)

/-- What `TempClone` returns, with the filesystem it leaves. -/
structure TempCloneResult where
  cloneDir : Str
  cleanUp : Option (Fs → Fs)
  err : Option CloneError
  fs : Fs

/-- Method `TempClone`; `tempDir` is the package variable of that name.  The variable
`repoExists` is set to `true` and nothing is asked of the remote host. -/
def TempClone (sys : Sys) (tempDir : Str) (fs : Fs) (repo : Str) : TempCloneResult :=
  match sys.lookPath "git".toList with
  | .error err =>
    { cloneDir := [], cleanUp := none, err := some (.tempCloneGit repo err), fs := fs }
  | .ok _ =>
    let err : Option Error := none
    let repoExists := true
    if err.isSome || !repoExists then
      { cloneDir := [], cleanUp := none, err := some (.tempCloneNoRepository repo), fs := fs }
    else
      match sys.tempDir tempDir "gandalf_clone".toList fs with
      | .error _ =>
        { cloneDir := [], cleanUp := none, err := some (.tempCloneNoTempDir repo), fs := fs }
      | .ok cloneDir =>
        { cloneDir := cloneDir, cleanUp := some (fun fs1 => RemoveAll cloneDir fs1), err := none,
          fs := fs.mkdir cloneDir }

/-! ## Sample systems and filesystems -/

/-- A system where `git` is found and every git process fails without touching the
filesystem. -/
def failingGitSys : Sys :=
  { lookPath := fun _ => .ok "/usr/bin/git".toList,
    combinedOutput := fun _ fs => .exited "fatal".toList (some (.external 1)) fs,
    tempDir := fun _ _ _ => .ok "/tmp/gandalf_clone1".toList,
    environ := [] }

/-- A system where `git` is not found. -/
def noGitSys : Sys :=
  { lookPath := fun _ => .error (.external 2),
    combinedOutput := fun _ fs => .exited [] none fs,
    tempDir := fun _ _ _ => .ok "/tmp/gandalf_clone1".toList,
    environ := [] }

/-- A system where `git` is found and no process can be started. -/
def noStartSys : Sys :=
  { lookPath := fun _ => .ok "/usr/bin/git".toList,
    combinedOutput := fun _ _ => .notStarted (.external 20),
    tempDir := fun _ _ _ => .ok "/tmp/gandalf_clone1".toList,
    environ := [] }

/-- A filesystem without any path. -/
def emptyFs : Fs := { stat := fun _ => .notExist }

/-- A filesystem whose only path is `dir`. -/
def oneDirFs (dir : Str) : Fs := { stat := fun p => if p = dir then .found else .notExist }

/-- A filesystem where `os.Stat` on `dir` fails with an error other than not-exist. -/
def deniedFs (dir : Str) : Fs :=
  { stat := fun p => if p = dir then .failed (.external 13) else .notExist }

/-- The invocation of git in the words of the specification: the resolved executable
with a fixed list of arguments, the clone directory as working directory, and the
process environment when one is passed. -/
def gitInClone (gitPath cloneDir : Str) (args : List Str) (env : Option (List Str)) : Cmd :=
  { Path := gitPath, Args := gitPath :: args, Env := env, Dir := cloneDir }

/-- What a clone operation does, guard by guard, `cmd` being the git command for a
resolved executable.  `git` is resolved first and a failure is returned at once.  Then
the clone directory is checked: when `os.Stat` does not find it the result is "Clone does
not exist", and nothing else gives that error.  A directory that is found leads to one
call of `CombinedOutput` on `cmd`: the call may start no process, or the process may
fail or succeed. -/
def GuardsClone (sys : Sys) (fs : Fs) (op : CloneOp) (cloneDir : Str) (cmd : Str → Cmd)
    (res : OpResult) : Prop :=
  (∀ e, sys.lookPath "git".toList = .error e →
    res.err = some (.gitNotFound op cloneDir e) ∧ res.ran = [] ∧ res.fs = fs) ∧
  (∀ p, sys.lookPath "git".toList = .ok p →
    (res.err = some (.cloneDoesNotExist op cloneDir) ↔ fs.stat cloneDir ≠ .found) ∧
    (fs.stat cloneDir ≠ .found → res.ran = [] ∧ res.fs = fs) ∧
    (fs.stat cloneDir = .found →
      (∀ e, sys.combinedOutput (cmd p) fs = .notStarted e →
        res.err = some (.gitFailed op cloneDir e []) ∧ res.ran = [] ∧ res.fs = fs) ∧
      (∀ out e fs1, sys.combinedOutput (cmd p) fs = .exited out (some e) fs1 →
        res.err = some (.gitFailed op cloneDir e out) ∧ res.ran = [cmd p] ∧ res.fs = fs1) ∧
      (∀ out fs1, sys.combinedOutput (cmd p) fs = .exited out none fs1 →
        res.err = none ∧ res.ran = [cmd p] ∧ res.fs = fs1)))

/-- The three ways a clone operation can go: `git` is not found; `git` is found and the
clone directory is not; both are found and `CombinedOutput` is called on the command. -/
def CloneCases (sys : Sys) (fs : Fs) (op : CloneOp) (cloneDir : Str) (cmd : Str → Cmd)
    (res : OpResult) : Prop :=
  (∃ e, sys.lookPath "git".toList = .error e ∧
    res = { err := some (.gitNotFound op cloneDir e), fs := fs, ran := [] }) ∨
  (∃ p, sys.lookPath "git".toList = .ok p ∧ fs.stat cloneDir ≠ .found ∧
    res = { err := some (.cloneDoesNotExist op cloneDir), fs := fs, ran := [] }) ∨
  (∃ p, sys.lookPath "git".toList = .ok p ∧ fs.stat cloneDir = .found ∧
    res = runGit sys fs op cloneDir (cmd p))

/-! ## Specification-side vocabulary -/

/-- A derivation of the regular expression: `Derives n re s t` says that `re`
reads the text `s` down to its suffix `t`, in a text of `n` characters. -/
def Derives (n : Nat) : Regex → Str → Str → Prop
  | .lit c, s, t => s = c :: t
  | .cls p, s, t => ∃ d, p d = true ∧ s = d :: t
  | .seq a b, s, t => ∃ m, Derives n a s m ∧ Derives n b m t
  | .opt a, s, t => Derives n a s t ∨ s = t
  | .star p, s, t => ∃ u, (∀ c ∈ u, p c = true) ∧ s = u ++ t
  | .plus p, s, t => ∃ d u, p d = true ∧ (∀ c ∈ u, p c = true) ∧ s = d :: (u ++ t)
  | .group _ a, s, t => Derives n a s t
  | .bol, s, t => s.length = n ∧ s = t
  | .eol, s, t => s = [] ∧ s = t

/-! ## The grammar in the words of the specification -/

/-- Characters of `[A-Za-z0-9]`. -/
def IsAlnum (c : Char) : Prop :=
  ('A' ≤ c ∧ c ≤ 'Z') ∨ ('a' ≤ c ∧ c ≤ 'z') ∨ ('0' ≤ c ∧ c ≤ '9')

/-- Characters of `[A-Za-z0-9_+@.-]`, allowed in a namespace. -/
def NsChar (c : Char) : Prop :=
  IsAlnum c ∨ c = '_' ∨ c = '+' ∨ c = '@' ∨ c = '.' ∨ c = '-'

/-- Characters of `[A-Za-z0-9_-]`, allowed in a repository name. -/
def NameChar (c : Char) : Prop := IsAlnum c ∨ c = '_' ∨ c = '-'

/-- Characters of `[a-z-]`, allowed in a git subcommand after `git-`. -/
def SubChar (c : Char) : Prop := ('a' ≤ c ∧ c ≤ 'z') ∨ c = '-'

/-- A namespace: one or more namespace characters, the first not being `.`. -/
def IsNamespace (ns : Str) : Prop :=
  ns ≠ [] ∧ (∀ c ∈ ns, NsChar c) ∧ ns.head? ≠ some '.'

/-- A name: one or more name characters. -/
def IsName (nm : Str) : Prop := nm ≠ [] ∧ ∀ c ∈ nm, NameChar c

/-- A repository path: a name, optionally preceded by a namespace and one `/`. -/
def IsRepoPath (p : Str) : Prop :=
  IsName p ∨ ∃ ns nm, IsNamespace ns ∧ IsName nm ∧ p = ns ++ '/' :: nm

/-- A git subcommand: `git-` followed by one or more characters of `[a-z-]`. -/
def IsSubcommand (sub : Str) : Prop :=
  ∃ w, w ≠ [] ∧ (∀ c ∈ w, SubChar c) ∧ sub = 'g' :: 'i' :: 't' :: '-' :: w

/-- The text `.git'` that closes the quoted reference. -/
def dotGitQuote : Str := ['.', 'g', 'i', 't', quote]

/-- A command of the form `<sub> '[<ns>/]<name>.git'`. -/
def IsGitCommand (s : Str) : Prop :=
  ∃ sub p, IsSubcommand sub ∧ IsRepoPath p ∧ s = sub ++ ' ' :: quote :: (p ++ dotGitQuote)

/-- A command of the form `<sub> '/[<ns>/]<name>.git'`, with a slash after the quote. -/
def IsGitCommandSlash (s : Str) : Prop :=
  ∃ sub p, IsSubcommand sub ∧ IsRepoPath p ∧
    s = sub ++ ' ' :: quote :: '/' :: (p ++ dotGitQuote)

/-- The text contains a command, with or without the slash after the quote. -/
def ContainsGitCommand (s : Str) : Prop :=
  ∃ pre mid post, s = pre ++ mid ++ post ∧ (IsGitCommand mid ∨ IsGitCommandSlash mid)

/-! ## Access control -/

theorem any_name_iff (x : Str) (l : List Str) :
    l.any (fun userName => x == userName) = true ↔ x ∈ l := by
  induction l with
  | nil => simp
  | cons a l ih => simp [List.any_cons, ih]

theorem hasWritePermission_iff (u : User) (r : Repository) :
    hasWritePermission u r = true ↔ u.Name ∈ r.Users := by
  unfold hasWritePermission
  exact any_name_iff _ _

theorem hasReadPermission_iff (u : User) (r : Repository) :
    hasReadPermission u r = true ↔
      r.IsPublic = true ∨ u.Name ∈ r.Users ∨ u.Name ∈ r.ReadOnlyUsers := by
  unfold hasReadPermission
  rw [← any_name_iff, ← any_name_iff]
  cases r.IsPublic <;>
    cases List.any r.Users (fun userName => u.Name == userName) <;>
    cases List.any r.ReadOnlyUsers (fun userName => u.Name == userName) <;> simp

/-- C2: `hasReadPermission u r` holds exactly when the repository is public or the
user's name is in `Users` or in `ReadOnlyUsers`; a public repository grants read
access to every user, whatever the two lists are. -/
theorem C2_hasReadPermission_spec :
    (∀ (u : User) (r : Repository),
      hasReadPermission u r = true ↔
        r.IsPublic = true ∨ u.Name ∈ r.Users ∨ u.Name ∈ r.ReadOnlyUsers) ∧
    (∀ (u : User) (name : Str) (users readOnlyUsers : List Str) (ro rw : Str),
      hasReadPermission u
        { Name := name, Users := users, ReadOnlyUsers := readOnlyUsers, IsPublic := true,
          roURL := ro, rwURL := rw } = true) := by
  refine ⟨hasReadPermission_iff, ?_⟩
  intro u name users readOnlyUsers ro rw
  simp [hasReadPermission]

/-- C3: `hasWritePermission u r` holds exactly when the user's name is in `Users`; the
answer is the same for every value of `IsPublic` and of `ReadOnlyUsers`. -/
theorem C3_hasWritePermission_spec :
    (∀ (u : User) (r : Repository), hasWritePermission u r = true ↔ u.Name ∈ r.Users) ∧
    (∀ (u : User) (r : Repository) (isPublic : Bool) (readOnlyUsers : List Str),
      hasWritePermission u { r with IsPublic := isPublic, ReadOnlyUsers := readOnlyUsers } =
        hasWritePermission u r) := by
  refine ⟨hasWritePermission_iff, ?_⟩
  intro u r isPublic readOnlyUsers
  rfl

/-- C9: read permission is monotonic in the membership lists: when `r2` has the same
`IsPublic` as `r1` and its two lists contain those of `r1`, a read permission granted
on `r1` is granted on `r2`. -/
theorem C9_hasReadPermission_mono (u : User) (r1 r2 : Repository)
    (hpub : r2.IsPublic = r1.IsPublic)
    (husers : ∀ x ∈ r1.Users, x ∈ r2.Users)
    (hro : ∀ x ∈ r1.ReadOnlyUsers, x ∈ r2.ReadOnlyUsers)
    (h : hasReadPermission u r1 = true) : hasReadPermission u r2 = true := by
  rw [hasReadPermission_iff] at h ⊢
  rcases h with h | h | h
  · exact Or.inl (hpub.trans h)
  · exact Or.inr (Or.inl (husers _ h))
  · exact Or.inr (Or.inr (hro _ h))

/-- C9 at a concrete pair of repositories: a reader keeps access after a second reader
is added. -/
theorem C9_hasReadPermission_mono_witness :
    hasReadPermission ⟨"ann".toList⟩
      ⟨"proj".toList, ["bob".toList], ["ann".toList, "eve".toList], false, [], []⟩ = true :=
  C9_hasReadPermission_mono ⟨"ann".toList⟩
    ⟨"proj".toList, ["bob".toList], ["ann".toList], false, [], []⟩
    ⟨"proj".toList, ["bob".toList], ["ann".toList, "eve".toList], false, [], []⟩
    rfl (by decide) (by decide) (by decide)

/-! ## The matcher against derivations -/

theorem consumed_append (u t : Str) : consumed (u ++ t) t = u := by
  simp [consumed]

theorem starLoop_sound {α : Type} (p : Char → Bool) (k : Str → Option α) :
    ∀ (s : Str) (r : α), starLoop p k s = some r →
      ∃ u t, s = u ++ t ∧ (∀ c ∈ u, p c = true) ∧ k t = some r := by
  intro s
  induction s with
  | nil =>
    intro r h
    exact ⟨[], [], rfl, by simp, h⟩
  | cons c cs ih =>
    intro r h
    unfold starLoop at h
    by_cases hp : p c = true
    · rw [if_pos hp] at h
      cases hrec : starLoop p k cs with
      | some r1 =>
        rw [hrec] at h
        obtain ⟨u, t, hs, hu, hk⟩ := ih r1 hrec
        simp only [Option.some.injEq] at h
        subst h
        refine ⟨c :: u, t, by simp [hs], ?_, hk⟩
        intro x hx
        rcases List.mem_cons.mp hx with hx | hx
        · rw [hx]; exact hp
        · exact hu x hx
      | none =>
        rw [hrec] at h
        exact ⟨[], c :: cs, rfl, by simp, h⟩
    · rw [if_neg hp] at h
      exact ⟨[], c :: cs, rfl, by simp, h⟩

theorem starLoop_of_cont {α : Type} (p : Char → Bool) (k : Str → Option α) (t : Str)
    (h : (k t).isSome = true) : (starLoop p k t).isSome = true := by
  cases t with
  | nil => simpa [starLoop] using h
  | cons c cs =>
    unfold starLoop
    by_cases hp : p c = true
    · rw [if_pos hp]
      cases hrec : starLoop p k cs with
      | some r1 => rfl
      | none => exact h
    · rw [if_neg hp]; exact h

theorem starLoop_complete {α : Type} (p : Char → Bool) (k : Str → Option α) (u t : Str)
    (hu : ∀ c ∈ u, p c = true) (h : (k t).isSome = true) :
    (starLoop p k (u ++ t)).isSome = true := by
  induction u with
  | nil => exact starLoop_of_cont p k t h
  | cons c cs ih =>
    have hc : p c = true := hu c (List.mem_cons_self _ _)
    have hrec := ih (fun x hx => hu x (List.mem_cons_of_mem _ hx))
    show (starLoop p k (c :: (cs ++ t))).isSome = true
    unfold starLoop
    rw [if_pos hc]
    cases hr : starLoop p k (cs ++ t) with
    | some r1 => rfl
    | none => rw [hr] at hrec; exact absurd hrec (by simp)

theorem starLoop_greedy {α : Type} (p : Char → Bool) (k : Str → Option α) (u t : Str) (r : α)
    (hu : ∀ c ∈ u, p c = true) (h : starLoop p k t = some r) :
    starLoop p k (u ++ t) = some r := by
  induction u with
  | nil => exact h
  | cons c cs ih =>
    have hc : p c = true := hu c (List.mem_cons_self _ _)
    have hrec := ih (fun x hx => hu x (List.mem_cons_of_mem _ hx))
    show starLoop p k (c :: (cs ++ t)) = some r
    unfold starLoop
    rw [if_pos hc, hrec]

theorem starLoop_stop {α : Type} (p : Char → Bool) (k : Str → Option α) (d : Char) (t : Str)
    (hd : p d = false) : starLoop p k (d :: t) = k (d :: t) := by
  unfold starLoop
  simp [hd]

theorem matchRe_sound {α : Type} (n : Nat) (re : Regex) :
    ∀ (s : Str) (caps : Caps) (k : Str → Caps → Option α) (r : α),
      matchRe n re s caps k = some r → ∃ t c, Derives n re s t ∧ k t c = some r := by
  induction re with
  | lit c =>
    intro s caps k r h
    cases s with
    | nil => simp [matchRe] at h
    | cons d t =>
      by_cases hd : d = c
      · subst hd
        simp only [matchRe, if_true] at h
        exact ⟨t, caps, rfl, h⟩
      · simp [matchRe, hd] at h
  | cls p =>
    intro s caps k r h
    cases s with
    | nil => simp [matchRe] at h
    | cons d t =>
      by_cases hd : p d = true
      · simp only [matchRe, hd, if_true] at h
        exact ⟨t, caps, ⟨d, hd, rfl⟩, h⟩
      · simp [matchRe, hd] at h
  | seq a b iha ihb =>
    intro s caps k r h
    simp only [matchRe] at h
    obtain ⟨m, c1, hda, h1⟩ := iha s caps _ r h
    obtain ⟨t, c2, hdb, h2⟩ := ihb m c1 k r h1
    exact ⟨t, c2, ⟨m, hda, hdb⟩, h2⟩
  | opt a iha =>
    intro s caps k r h
    simp only [matchRe] at h
    cases hm : matchRe n a s caps k with
    | some r1 =>
      rw [hm] at h
      simp only [Option.some.injEq] at h
      subst h
      obtain ⟨t, c, hd, hk⟩ := iha s caps k r1 hm
      exact ⟨t, c, Or.inl hd, hk⟩
    | none =>
      rw [hm] at h
      exact ⟨s, caps, Or.inr rfl, h⟩
  | star p =>
    intro s caps k r h
    simp only [matchRe] at h
    obtain ⟨u, t, hs, hu, hk⟩ := starLoop_sound p _ s r h
    exact ⟨t, caps, ⟨u, hu, hs⟩, hk⟩
  | plus p =>
    intro s caps k r h
    cases s with
    | nil => simp [matchRe] at h
    | cons d t =>
      by_cases hd : p d = true
      · simp only [matchRe, hd, if_true] at h
        obtain ⟨u, t1, hs, hu, hk⟩ := starLoop_sound p _ t r h
        exact ⟨t1, caps, ⟨d, u, hd, hu, by rw [hs]⟩, hk⟩
      · simp [matchRe, hd] at h
  | group i a iha =>
    intro s caps k r h
    simp only [matchRe] at h
    obtain ⟨t, c, hd, hk⟩ := iha s caps _ r h
    exact ⟨t, _, hd, hk⟩
  | bol =>
    intro s caps k r h
    by_cases hn : s.length = n
    · simp only [matchRe, hn, if_true] at h
      exact ⟨s, caps, ⟨hn, rfl⟩, h⟩
    · simp [matchRe, hn] at h
  | eol =>
    intro s caps k r h
    by_cases hn : s.length = 0
    · simp only [matchRe, hn, if_true] at h
      exact ⟨s, caps, ⟨List.length_eq_zero.mp hn, rfl⟩, h⟩
    · simp [matchRe, hn] at h

theorem matchRe_complete {α : Type} (n : Nat) (re : Regex) :
    ∀ (s t : Str) (caps : Caps) (k : Str → Caps → Option α),
      Derives n re s t → (∀ c, (k t c).isSome = true) →
        (matchRe n re s caps k).isSome = true := by
  induction re with
  | lit c =>
    intro s t caps k hd hk
    simp only [Derives] at hd
    subst hd
    simpa [matchRe] using hk caps
  | cls p =>
    intro s t caps k hd hk
    obtain ⟨d, hp, hs⟩ := hd
    subst hs
    simpa [matchRe, hp] using hk caps
  | seq a b iha ihb =>
    intro s t caps k hd hk
    obtain ⟨m, hda, hdb⟩ := hd
    simp only [matchRe]
    exact iha s m caps _ hda (fun c => ihb m t c k hdb hk)
  | opt a iha =>
    intro s t caps k hd hk
    simp only [matchRe]
    cases hm : matchRe n a s caps k with
    | some r1 => rfl
    | none =>
      rcases hd with hd | hd
      · have := iha s t caps k hd hk
        rw [hm] at this
        exact absurd this (by simp)
      · subst hd
        exact hk caps
  | star p =>
    intro s t caps k hd hk
    obtain ⟨u, hu, hs⟩ := hd
    subst hs
    simp only [matchRe]
    exact starLoop_complete p _ u t hu (hk caps)
  | plus p =>
    intro s t caps k hd hk
    obtain ⟨d, u, hp, hu, hs⟩ := hd
    subst hs
    simp only [matchRe, hp, if_true]
    exact starLoop_complete p _ u t hu (hk caps)
  | group i a iha =>
    intro s t caps k hd hk
    simp only [matchRe]
    exact iha s t caps _ hd (fun c => hk _)
  | bol =>
    intro s t caps k hd hk
    obtain ⟨hn, hs⟩ := hd
    subst hs
    simpa [matchRe, hn] using hk caps
  | eol =>
    intro s t caps k hd hk
    obtain ⟨hn, hs⟩ := hd
    subst hs
    subst hn
    simpa [matchRe] using hk caps

/-- The search succeeds exactly when a derivation starts at some position. -/
theorem searchAt_isSome_iff (re : Regex) (n : Nat) (s : Str) :
    (searchAt re n s).isSome = true ↔ ∃ pre st t, s = pre ++ st ∧ Derives n re st t := by
  induction s with
  | nil =>
    constructor
    · intro h
      unfold searchAt at h
      cases hm : matchRe n re [] noCaps (fun t c => some (t, c)) with
      | none => rw [hm] at h; simp at h
      | some r =>
        obtain ⟨t, c, hd, _⟩ := matchRe_sound n re _ _ _ _ hm
        exact ⟨[], [], t, rfl, hd⟩
    · rintro ⟨pre, st, t, hs, hd⟩
      have hst : st = [] := by
        have := congrArg List.length hs
        simp at this
        exact List.length_eq_zero.mp (by omega)
      subst hst
      have := matchRe_complete n re [] t noCaps (fun t c => some (t, c)) hd (fun _ => rfl)
      unfold searchAt
      cases hm : matchRe n re [] noCaps (fun t c => some (t, c)) with
      | none => rw [hm] at this; simp at this
      | some r => rfl
  | cons d s ih =>
    constructor
    · intro h
      unfold searchAt at h
      cases hm : matchRe n re (d :: s) noCaps (fun t c => some (t, c)) with
      | some r =>
        obtain ⟨t, c, hd, _⟩ := matchRe_sound n re _ _ _ _ hm
        exact ⟨[], d :: s, t, rfl, hd⟩
      | none =>
        rw [hm] at h
        obtain ⟨pre, st, t, hs, hd⟩ := ih.mp h
        exact ⟨d :: pre, st, t, by simp [hs], hd⟩
    · rintro ⟨pre, st, t, hs, hd⟩
      unfold searchAt
      cases hm : matchRe n re (d :: s) noCaps (fun t c => some (t, c)) with
      | some r => rfl
      | none =>
        cases pre with
        | nil =>
          simp only [List.nil_append] at hs
          subst hs
          have := matchRe_complete n re _ t noCaps (fun t c => some (t, c)) hd (fun _ => rfl)
          rw [hm] at this
          simp at this
        | cons e pre =>
          simp only [List.cons_append, List.cons.injEq] at hs
          exact ih.mpr ⟨pre, st, t, hs.2, hd⟩

theorem inRange_iff (lo hi c : Char) : inRange lo hi c = true ↔ lo ≤ c ∧ c ≤ hi := by
  simp [inRange, Char.le_def, UInt32.le_def, Char.toNat, UInt32.toNat, BitVec.le_def]

theorem isWord_iff (c : Char) : isWord c = true ↔ IsAlnum c ∨ c = '_' := by
  simp only [isWord, IsAlnum, Bool.or_eq_true, inRange_iff, beq_iff_eq]
  tauto

theorem clsName_iff (c : Char) : clsName c = true ↔ NameChar c := by
  simp only [clsName, NameChar, Bool.or_eq_true, isWord_iff, beq_iff_eq]
  tauto

theorem clsNsTail_iff (c : Char) : clsNsTail c = true ↔ NsChar c := by
  simp only [clsNsTail, NsChar, Bool.or_eq_true, isWord_iff, beq_iff_eq]
  tauto

theorem clsLowerDash_iff (c : Char) : clsLowerDash c = true ↔ SubChar c := by
  simp only [clsLowerDash, SubChar, Bool.or_eq_true, inRange_iff, beq_iff_eq]

theorem clsNsHead_iff (c : Char) : clsNsHead c = true ↔ NsChar c ∧ c ≠ '.' := by
  constructor
  · intro h
    refine ⟨?_, ?_⟩
    · rw [← clsNsTail_iff]
      simp only [clsNsHead, clsNsTail, Bool.or_eq_true] at h ⊢
      tauto
    · rintro rfl
      revert h
      decide
  · rintro ⟨h, hne⟩
    rw [← clsNsTail_iff] at h
    simp only [clsNsHead, clsNsTail, Bool.or_eq_true, beq_iff_eq] at h ⊢
    tauto

theorem regexpMatch_iff (re : Regex) (s : Str) :
    regexpMatch re s = true ↔ ∃ pre st t, s = pre ++ st ∧ Derives s.length re st t :=
  searchAt_isSome_iff re s.length s

theorem isName_of_run (d : Char) (u : Str) (hd : clsName d = true)
    (hu : ∀ c ∈ u, clsName c = true) : IsName (d :: u) := by
  refine ⟨by simp, ?_⟩
  intro c hc
  rcases List.mem_cons.mp hc with h | h
  · rw [h]; exact (clsName_iff d).mp hd
  · exact (clsName_iff c).mp (hu c h)

theorem isNamespace_of_run (d : Char) (u : Str) (hd : clsNsHead d = true)
    (hu : ∀ c ∈ u, clsNsTail c = true) : IsNamespace (d :: u) := by
  refine ⟨by simp, ?_, ?_⟩
  · intro c hc
    rcases List.mem_cons.mp hc with h | h
    · rw [h]; exact ((clsNsHead_iff d).mp hd).1
    · exact (clsNsTail_iff c).mp (hu c h)
  · simp only [List.head?_cons, ne_eq, Option.some.injEq]
    exact ((clsNsHead_iff d).mp hd).2

theorem run_of_isName (nm : Str) (h : IsName nm) :
    ∃ d u, clsName d = true ∧ (∀ c ∈ u, clsName c = true) ∧ nm = d :: u := by
  obtain ⟨hne, hall⟩ := h
  cases nm with
  | nil => exact absurd rfl hne
  | cons d u =>
    exact ⟨d, u, (clsName_iff d).mpr (hall d (List.mem_cons_self _ _)),
      fun c hc => (clsName_iff c).mpr (hall c (List.mem_cons_of_mem _ hc)), rfl⟩

theorem run_of_isNamespace (ns : Str) (h : IsNamespace ns) :
    ∃ d u, clsNsHead d = true ∧ (∀ c ∈ u, clsNsTail c = true) ∧ ns = d :: u := by
  obtain ⟨hne, hall, hhead⟩ := h
  cases ns with
  | nil => exact absurd rfl hne
  | cons d u =>
    refine ⟨d, u, (clsNsHead_iff d).mpr ⟨hall d (List.mem_cons_self _ _), ?_⟩,
      fun c hc => (clsNsTail_iff c).mpr (hall c (List.mem_cons_of_mem _ hc)), rfl⟩
    intro hdot
    exact hhead (by simp [hdot])

/-- Derivations of the namespace group. -/
theorem derives_ns_iff (n i : Nat) (s t : Str) :
    Derives n (.group i (.seq (.cls clsNsHead) (.seq (.star clsNsTail) (.lit '/')))) s t ↔
      ∃ ns, IsNamespace ns ∧ s = ns ++ '/' :: t := by
  simp only [Derives]
  constructor
  · rintro ⟨m1, ⟨d, hd, hs⟩, m2, ⟨u, hu, hm1⟩, hm2⟩
    subst hs hm1 hm2
    exact ⟨d :: u, isNamespace_of_run d u hd hu, by simp⟩
  · rintro ⟨ns, hns, hs⟩
    obtain ⟨d, u, hd, hu, rfl⟩ := run_of_isNamespace ns hns
    exact ⟨u ++ '/' :: t, ⟨d, hd, by simp [hs]⟩, '/' :: t, ⟨u, hu, rfl⟩, rfl⟩

/-- Derivations of `[\w-]+`. -/
theorem derives_name_iff (n : Nat) (s t : Str) :
    Derives n (.plus clsName) s t ↔ ∃ nm, IsName nm ∧ s = nm ++ t := by
  simp only [Derives]
  constructor
  · rintro ⟨d, u, hd, hu, hs⟩
    exact ⟨d :: u, isName_of_run d u hd hu, by simp [hs]⟩
  · rintro ⟨nm, hnm, hs⟩
    obtain ⟨d, u, hd, hu, rfl⟩ := run_of_isName nm hnm
    exact ⟨d, u, hd, hu, by simp [hs]⟩

theorem repoName_derives_iff (s : Str) :
    (∃ pre st t, s = pre ++ st ∧ Derives s.length repoNameRe st t) ↔ IsRepoPath s := by
  constructor
  · rintro ⟨pre, st, t, hs, hd⟩
    unfold repoNameRe at hd
    obtain ⟨m, ⟨hlen, hm⟩, m2, hopt, m3, hplus, ht, _⟩ := hd
    have hpre : pre = [] := by
      have := congrArg List.length hs
      simp only [List.length_append] at this
      exact List.length_eq_zero.mp (by omega)
    subst hpre hm ht
    simp only [List.nil_append] at hs
    subst hs
    obtain ⟨nm, hnm, hm2⟩ := (derives_name_iff _ _ _).mp hplus
    simp only [List.append_nil] at hm2
    subst hm2
    rcases hopt with hopt | hopt
    · obtain ⟨ns, hns, hs⟩ := (derives_ns_iff _ _ _ _).mp hopt
      exact Or.inr ⟨ns, m2, hns, hnm, hs⟩
    · subst hopt
      exact Or.inl hnm
  · intro h
    refine ⟨[], s, [], rfl, ?_⟩
    unfold repoNameRe
    rcases h with h | ⟨ns, nm, hns, hnm, hs⟩
    · exact ⟨s, ⟨rfl, rfl⟩, s, Or.inr rfl, [],
        (derives_name_iff _ _ _).mpr ⟨s, h, by simp⟩, rfl, rfl⟩
    · exact ⟨s, ⟨rfl, rfl⟩, nm, Or.inl ((derives_ns_iff _ _ _ _).mpr ⟨ns, hns, hs⟩), [],
        (derives_name_iff _ _ _).mpr ⟨nm, hnm, by simp⟩, rfl, rfl⟩

theorem isValid_fst_iff (r : Repository) (h : r.Users ≠ []) :
    r.isValid.1 = true ↔ IsRepoPath r.Name := by
  rw [← repoName_derives_iff, ← regexpMatch_iff]
  have hlen : r.Users.length ≠ 0 := fun h0 => h (List.length_eq_zero.mp h0)
  unfold Repository.isValid
  cases regexpMatch repoNameRe r.Name <;> simp [hlen]

theorem regexpMatch_repoNameRe_iff (s : Str) :
    regexpMatch repoNameRe s = true ↔ IsRepoPath s := by
  rw [regexpMatch_iff, repoName_derives_iff]

theorem isValid_of_match_false (r : Repository)
    (h : regexpMatch repoNameRe r.Name = false) :
    r.isValid = (false, some (Error.invalidRepository "repository name is not valid")) := by
  unfold Repository.isValid
  simp [h]

theorem isValid_of_match_true (r : Repository)
    (h : regexpMatch repoNameRe r.Name = true) (hu : r.Users ≠ []) :
    r.isValid = (true, none) := by
  have hlen : r.Users.length ≠ 0 := fun h0 => hu (List.length_eq_zero.mp h0)
  unfold Repository.isValid
  simp [h, hlen]

theorem isValid_of_no_users (r : Repository) (hu : r.Users = []) :
    ∃ message, r.isValid = (false, some (Error.invalidRepository message)) := by
  unfold Repository.isValid
  cases regexpMatch repoNameRe r.Name <;> simp [hu]

theorem New_of_invalid (remote : Remote) (name : Str) (users readOnlyUsers : List Str)
    (isPublic : Bool) (e : Option Error)
    (h : Repository.isValid ⟨name, users, readOnlyUsers, isPublic, [], []⟩ = (false, e)) :
    New remote name users readOnlyUsers isPublic =
      ((some ⟨name, users, readOnlyUsers, isPublic, [], []⟩, e), []) := by
  unfold New
  simp only [h]

/-- C7: for a repository with a non-empty users list, `isValid` accepts exactly when the
name is an optional namespace (namespace characters, the first not `.`) followed by one
`/`, then a name of name characters, and nothing else; the names `/proj`, `.team/proj`,
`team//proj` and `bad name` are rejected. -/
theorem C7_isValid_name_grammar (r : Repository) (h : r.Users ≠ []) :
    (r.isValid.1 = true ↔ IsRepoPath r.Name) ∧
    (Repository.isValid { r with Name := "/proj".toList }).1 = false ∧
    (Repository.isValid { r with Name := ".team/proj".toList }).1 = false ∧
    (Repository.isValid { r with Name := "team//proj".toList }).1 = false ∧
    (Repository.isValid { r with Name := "bad name".toList }).1 = false := by
  refine ⟨isValid_fst_iff r h, ?_, ?_, ?_, ?_⟩
  · rw [isValid_of_match_false _ (by decide : regexpMatch repoNameRe "/proj".toList = false)]
  · rw [isValid_of_match_false _ (by decide : regexpMatch repoNameRe ".team/proj".toList = false)]
  · rw [isValid_of_match_false _ (by decide : regexpMatch repoNameRe "team//proj".toList = false)]
  · rw [isValid_of_match_false _ (by decide : regexpMatch repoNameRe "bad name".toList = false)]

/-- C7 at the repository `team/proj` with one user. -/
theorem C7_isValid_name_grammar_witness :
    ((Repository.isValid ⟨"team/proj".toList, ["ann".toList], [], false, [], []⟩).1 = true ↔
        IsRepoPath "team/proj".toList) ∧
      (Repository.isValid ⟨"/proj".toList, ["ann".toList], [], false, [], []⟩).1 = false ∧
      (Repository.isValid ⟨".team/proj".toList, ["ann".toList], [], false, [], []⟩).1 = false ∧
      (Repository.isValid ⟨"team//proj".toList, ["ann".toList], [], false, [], []⟩).1 = false ∧
      (Repository.isValid ⟨"bad name".toList, ["ann".toList], [], false, [], []⟩).1 = false :=
  C7_isValid_name_grammar ⟨"team/proj".toList, ["ann".toList], [], false, [], []⟩ (by decide)

/-- C8 fails on the code: the name `te-am_1/pro.ject` is rejected although the users list
is not empty. -/
theorem C8_counterexample :
    (Repository.isValid
      ⟨"te-am_1/pro.ject".toList, ["ann".toList], [], false, [], []⟩).1 = false := by
  decide

/-- C8 as amended: for a non-empty users list `isValid` accepts the names `proj` and
`team/proj`, and rejects `te-am_1/pro.ject`, whose name part holds a `.`. -/
theorem C8_isValid_examples (r : Repository) (h : r.Users ≠ []) :
    Repository.isValid { r with Name := "proj".toList } = (true, none) ∧
    Repository.isValid { r with Name := "team/proj".toList } = (true, none) ∧
    (Repository.isValid { r with Name := "te-am_1/pro.ject".toList }).1 = false := by
  refine ⟨?_, ?_, ?_⟩
  · exact isValid_of_match_true _ (by decide : regexpMatch repoNameRe "proj".toList = true) h
  · exact isValid_of_match_true _ (by decide : regexpMatch repoNameRe "team/proj".toList = true) h
  · rw [isValid_of_match_false _
      (by decide : regexpMatch repoNameRe "te-am_1/pro.ject".toList = false)]

/-- C8 as amended, at a repository with the single user `ann`. -/
theorem C8_isValid_examples_witness :
    Repository.isValid ⟨"proj".toList, ["ann".toList], [], false, [], []⟩ = (true, none) ∧
    Repository.isValid ⟨"team/proj".toList, ["ann".toList], [], false, [], []⟩ = (true, none) ∧
    (Repository.isValid
      ⟨"te-am_1/pro.ject".toList, ["ann".toList], [], false, [], []⟩).1 = false :=
  C8_isValid_examples ⟨[], ["ann".toList], [], false, [], []⟩ (by decide)

/-- C6: when the name is not a repository path of the grammar or the users list is
empty, `New` returns an `InvalidRepositoryError` and makes no request: no client is
built and `CreateRepository` is not called. -/
theorem C6_New_invalid_no_remote_call (remote : Remote) (name : Str)
    (users readOnlyUsers : List Str) (isPublic : Bool)
    (h : ¬ IsRepoPath name ∨ users = []) :
    (∃ message, (New remote name users readOnlyUsers isPublic).1.2 =
        some (Error.invalidRepository message)) ∧
      (New remote name users readOnlyUsers isPublic).2 = [] := by
  have hinv : ∃ message, Repository.isValid ⟨name, users, readOnlyUsers, isPublic, [], []⟩ =
      (false, some (Error.invalidRepository message)) := by
    rcases h with h | h
    · refine ⟨_, isValid_of_match_false _ ?_⟩
      cases hm : regexpMatch repoNameRe name with
      | false => rfl
      | true => exact absurd ((regexpMatch_repoNameRe_iff name).mp hm) h
    · exact isValid_of_no_users _ h
  obtain ⟨message, hv⟩ := hinv
  rw [New_of_invalid remote name users readOnlyUsers isPublic _ hv]
  exact ⟨⟨message, rfl⟩, rfl⟩

/-- C6 at a well-formed name with an empty users list. -/
theorem C6_New_invalid_no_remote_call_witness :
    (∃ message, (New ⟨fun _ => none, fun _ => false⟩ "proj".toList [] [] false).1.2 =
        some (Error.invalidRepository message)) ∧
      (New ⟨fun _ => none, fun _ => false⟩ "proj".toList [] [] false).2 = [] :=
  C6_New_invalid_no_remote_call ⟨fun _ => none, fun _ => false⟩ "proj".toList [] [] false
    (Or.inr rfl)

/-- Derivations of `(git-[a-z-]+)`. -/
theorem derives_reCommand_iff (n : Nat) (s t : Str) :
    Derives n reCommand s t ↔ ∃ sub, IsSubcommand sub ∧ s = sub ++ t := by
  simp only [reCommand, Derives]
  constructor
  · rintro ⟨m1, h1, m2, h2, m3, h3, m4, h4, d, u, hd, hu, h5⟩
    subst h1 h2 h3 h4 h5
    refine ⟨'g' :: 'i' :: 't' :: '-' :: d :: u, ⟨d :: u, by simp, ?_, rfl⟩, by simp⟩
    intro c hc
    rcases List.mem_cons.mp hc with h | h
    · rw [h]; exact (clsLowerDash_iff d).mp hd
    · exact (clsLowerDash_iff c).mp (hu c h)
  · rintro ⟨sub, ⟨w, hne, hw, hsub⟩, hs⟩
    subst hsub hs
    cases w with
    | nil => exact absurd rfl hne
    | cons d u =>
      exact ⟨_, rfl, _, rfl, _, rfl, _, rfl, d, u,
        (clsLowerDash_iff d).mpr (hw d (List.mem_cons_self _ _)),
        fun c hc => (clsLowerDash_iff c).mpr (hw c (List.mem_cons_of_mem _ hc)), by simp⟩

/-- Derivations of `\.git'`. -/
theorem derives_reDotGit_iff (n : Nat) (s t : Str) :
    Derives n reDotGit s t ↔ s = dotGitQuote ++ t := by
  simp only [reDotGit, Derives, dotGitQuote]
  constructor
  · rintro ⟨m1, h1, m2, h2, m3, h3, m4, h4, h5⟩
    subst h1 h2 h3 h4 h5
    rfl
  · intro h
    exact ⟨_, h, _, rfl, _, rfl, _, rfl, rfl⟩

/-- Derivations of `([\w-+@][\w-+.@]*/)?([\w-]+)\.git'`. -/
theorem derives_path_iff (n : Nat) (s t : Str) :
    Derives n (.seq (.opt reNamespace) (.seq (.group 3 (.plus clsName)) reDotGit)) s t ↔
      ∃ p, IsRepoPath p ∧ s = p ++ (dotGitQuote ++ t) := by
  constructor
  · rintro ⟨m1, hopt, m2, hname, hdot⟩
    rw [derives_reDotGit_iff] at hdot
    obtain ⟨nm, hnm, hm1⟩ := (derives_name_iff n m1 m2).mp hname
    subst hdot hm1
    rcases hopt with hopt | hopt
    · obtain ⟨ns, hns, hs⟩ := (derives_ns_iff n 2 s _).mp hopt
      exact ⟨ns ++ '/' :: nm, Or.inr ⟨ns, nm, hns, hnm, rfl⟩, by simp [hs]⟩
    · exact ⟨nm, Or.inl hnm, hopt⟩
  · rintro ⟨p, hp, hs⟩
    rcases hp with hp | ⟨ns, nm, hns, hnm, hp⟩
    · exact ⟨s, Or.inr rfl, dotGitQuote ++ t,
        (derives_name_iff n _ _).mpr ⟨p, hp, hs⟩, (derives_reDotGit_iff n _ _).mpr rfl⟩
    · subst hp
      refine ⟨nm ++ (dotGitQuote ++ t), Or.inl ((derives_ns_iff n 2 s _).mpr ⟨ns, hns, ?_⟩),
        dotGitQuote ++ t, (derives_name_iff n _ _).mpr ⟨nm, hnm, rfl⟩,
        (derives_reDotGit_iff n _ _).mpr rfl⟩
      simp [hs]

/-- Derivations of the whole pattern of `parseGitCommand`. -/
theorem derives_gitCommandRe_iff (n : Nat) (s t : Str) :
    Derives n gitCommandRe s t ↔
      ∃ mid, (IsGitCommand mid ∨ IsGitCommandSlash mid) ∧ s = mid ++ t := by
  constructor
  · rintro ⟨m1, hcmd, m2, hsp, m3, hq, m4, hsl, hpath⟩
    obtain ⟨sub, hsub, hs⟩ := (derives_reCommand_iff n s m1).mp hcmd
    obtain ⟨p, hp, hm4⟩ := (derives_path_iff n m4 t).mp hpath
    simp only [Derives] at hsp hq hsl
    subst hs hsp hq hm4
    rcases hsl with hsl | hsl
    · subst hsl
      exact ⟨sub ++ ' ' :: quote :: '/' :: (p ++ dotGitQuote),
        Or.inr ⟨sub, p, hsub, hp, rfl⟩, by simp⟩
    · subst hsl
      exact ⟨sub ++ ' ' :: quote :: (p ++ dotGitQuote),
        Or.inl ⟨sub, p, hsub, hp, rfl⟩, by simp⟩
  · rintro ⟨mid, hmid, hs⟩
    rcases hmid with ⟨sub, p, hsub, hp, hmid⟩ | ⟨sub, p, hsub, hp, hmid⟩
    · subst hmid hs
      exact ⟨' ' :: quote :: (p ++ (dotGitQuote ++ t)),
        (derives_reCommand_iff n _ _).mpr ⟨sub, hsub, by simp⟩,
        quote :: (p ++ (dotGitQuote ++ t)), rfl, p ++ (dotGitQuote ++ t), rfl,
        p ++ (dotGitQuote ++ t), Or.inr rfl, (derives_path_iff n _ _).mpr ⟨p, hp, rfl⟩⟩
    · subst hmid hs
      exact ⟨' ' :: quote :: '/' :: (p ++ (dotGitQuote ++ t)),
        (derives_reCommand_iff n _ _).mpr ⟨sub, hsub, by simp⟩,
        quote :: '/' :: (p ++ (dotGitQuote ++ t)), rfl, '/' :: (p ++ (dotGitQuote ++ t)), rfl,
        p ++ (dotGitQuote ++ t), Or.inl rfl, (derives_path_iff n _ _).mpr ⟨p, hp, rfl⟩⟩

theorem gitCommandRe_numSubexp : gitCommandRe.numSubexp = 3 := by decide

/-- The parser fails exactly when the search finds no match. -/
theorem parseGitCommand_of_none (s : Str) (h : searchAt gitCommandRe s.length s = none) :
    parseGitCommand s = ([], [], some Error.weirdCommand) := by
  simp [parseGitCommand, FindStringSubmatch, h]

theorem parseGitCommand_of_some (s st t : Str) (c : Caps)
    (h : searchAt gitCommandRe s.length s = some (st, t, c)) :
    parseGitCommand s = (c 1, c 2 ++ c 3, none) := by
  simp [parseGitCommand, FindStringSubmatch, h, gitCommandRe_numSubexp, List.range_succ]

/-- The parser succeeds exactly on the texts that contain a command of the pattern. -/
theorem parseGitCommand_err_iff (s : Str) :
    (parseGitCommand s).2.2 = none ↔ ContainsGitCommand s := by
  have hiff := searchAt_isSome_iff gitCommandRe s.length s
  constructor
  · intro h
    cases hs : searchAt gitCommandRe s.length s with
    | none => rw [parseGitCommand_of_none s hs] at h; simp at h
    | some r =>
      obtain ⟨pre, st, t, hpre, hd⟩ := hiff.mp (by rw [hs]; rfl)
      obtain ⟨mid, hmid, hst⟩ := (derives_gitCommandRe_iff _ _ _).mp hd
      exact ⟨pre, mid, t, by rw [hpre, hst, List.append_assoc], hmid⟩
  · rintro ⟨pre, mid, post, hs, hmid⟩
    have hsome : (searchAt gitCommandRe s.length s).isSome = true :=
      hiff.mpr ⟨pre, mid ++ post, post, by rw [hs, List.append_assoc],
        (derives_gitCommandRe_iff _ _ _).mpr ⟨mid, hmid, rfl⟩⟩
    cases hsr : searchAt gitCommandRe s.length s with
    | none => rw [hsr] at hsome; simp at hsome
    | some r =>
      obtain ⟨st, t, c⟩ := r
      rw [parseGitCommand_of_some s st t c hsr]

/-! ## The first successful path of the matcher -/

theorem matchRe_seq {α : Type} (n : Nat) (a b : Regex) (s : Str) (caps : Caps)
    (k : Str → Caps → Option α) :
    matchRe n (.seq a b) s caps k = matchRe n a s caps (fun t c => matchRe n b t c k) := rfl

theorem matchRe_group {α : Type} (n i : Nat) (a : Regex) (s : Str) (caps : Caps)
    (k : Str → Caps → Option α) :
    matchRe n (.group i a) s caps k =
      matchRe n a s caps (fun t c => k t (setCap c i (consumed s t))) := rfl

theorem matchRe_lit_cons {α : Type} (n : Nat) (c : Char) (t : Str) (caps : Caps)
    (k : Str → Caps → Option α) : matchRe n (.lit c) (c :: t) caps k = k t caps := by
  simp [matchRe]

theorem matchRe_cls_cons {α : Type} (n : Nat) (p : Char → Bool) (d : Char) (t : Str)
    (caps : Caps) (k : Str → Caps → Option α) (hd : p d = true) :
    matchRe n (.cls p) (d :: t) caps k = k t caps := by
  simp [matchRe, hd]

theorem matchRe_opt_lit_skip {α : Type} (n : Nat) (c d : Char) (t : Str) (caps : Caps)
    (k : Str → Caps → Option α) (h : d ≠ c) :
    matchRe n (.opt (.lit c)) (d :: t) caps k = k (d :: t) caps := by
  simp [matchRe, h]

theorem matchRe_opt_first {α : Type} (n : Nat) (a : Regex) (s : Str) (caps : Caps)
    (k : Str → Caps → Option α) (r : α) (h : matchRe n a s caps k = some r) :
    matchRe n (.opt a) s caps k = some r := by
  simp [matchRe, h]

theorem matchRe_opt_skip {α : Type} (n : Nat) (a : Regex) (s : Str) (caps : Caps)
    (k : Str → Caps → Option α) (h : matchRe n a s caps k = none) :
    matchRe n (.opt a) s caps k = k s caps := by
  simp [matchRe, h]

/-- A greedy `+` that reads a whole run and stops at a character outside the class. -/
theorem matchRe_plus_run {α : Type} (n : Nat) (p : Char → Bool) (d e : Char) (u t : Str)
    (caps : Caps) (k : Str → Caps → Option α) (r : α) (hd : p d = true)
    (hu : ∀ c ∈ u, p c = true) (he : p e = false) (hk : k (e :: t) caps = some r) :
    matchRe n (.plus p) (d :: (u ++ e :: t)) caps k = some r := by
  simp only [matchRe, hd, if_true]
  apply starLoop_greedy p _ u (e :: t) r hu
  rw [starLoop_stop p _ e t he]
  exact hk

/-- A greedy `*` that reads a whole run and stops at a character outside the class. -/
theorem matchRe_star_run {α : Type} (n : Nat) (p : Char → Bool) (e : Char) (u t : Str)
    (caps : Caps) (k : Str → Caps → Option α) (r : α)
    (hu : ∀ c ∈ u, p c = true) (he : p e = false) (hk : k (e :: t) caps = some r) :
    matchRe n (.star p) (u ++ e :: t) caps k = some r := by
  simp only [matchRe]
  apply starLoop_greedy p _ u (e :: t) r hu
  rw [starLoop_stop p _ e t he]
  exact hk

/-- Two splits of a text at the first character outside a class coincide. -/
theorem first_outside_unique (p : Char → Bool) :
    ∀ (x x2 : Str) (a a2 : Char) (y y2 : Str),
      (∀ c ∈ x, p c = true) → (∀ c ∈ x2, p c = true) → p a = false → p a2 = false →
      x ++ a :: y = x2 ++ a2 :: y2 → x = x2 ∧ a = a2 ∧ y = y2 := by
  intro x
  induction x with
  | nil =>
    intro x2 a a2 y y2 _ hx2 ha _ h
    cases x2 with
    | nil =>
      simp only [List.nil_append, List.cons.injEq] at h
      exact ⟨rfl, h.1, h.2⟩
    | cons b x2 =>
      simp only [List.nil_append, List.cons_append, List.cons.injEq] at h
      have := hx2 b (List.mem_cons_self _ _)
      rw [← h.1, ha] at this
      exact absurd this (by simp)
  | cons b x ih =>
    intro x2 a a2 y y2 hx hx2 ha ha2 h
    cases x2 with
    | nil =>
      simp only [List.nil_append, List.cons_append, List.cons.injEq] at h
      have := hx b (List.mem_cons_self _ _)
      rw [h.1, ha2] at this
      exact absurd this (by simp)
    | cons b2 x2 =>
      simp only [List.cons_append, List.cons.injEq] at h
      obtain ⟨h1, h2, h3⟩ := ih x2 a a2 y y2 (fun c hc => hx c (List.mem_cons_of_mem _ hc))
        (fun c hc => hx2 c (List.mem_cons_of_mem _ hc)) ha ha2 h.2
      exact ⟨by rw [h.1, h1], h2, h3⟩

/-- First path through `([\w-]+)\.git'` on a name followed by `.git'`. -/
theorem matchRe_name_dotGit {α : Type} (n : Nat) (d : Char) (u t : Str) (caps : Caps)
    (k : Str → Caps → Option α) (r : α) (hd : clsName d = true)
    (hu : ∀ c ∈ u, clsName c = true) (hk : k t (setCap caps 3 (d :: u)) = some r) :
    matchRe n (.seq (.group 3 (.plus clsName)) reDotGit)
      (d :: (u ++ (dotGitQuote ++ t))) caps k = some r := by
  rw [matchRe_seq, matchRe_group]
  show matchRe n (.plus clsName) (d :: (u ++ '.' :: ('g' :: 'i' :: 't' :: quote :: t))) caps _
    = some r
  apply matchRe_plus_run n clsName d '.' u _ caps _ r hd hu (by decide)
  simp only [reDotGit, matchRe_seq, matchRe_lit_cons]
  show k t (setCap caps 3 (consumed ((d :: u) ++ (dotGitQuote ++ t)) (dotGitQuote ++ t)))
    = some r
  rw [consumed_append]
  exact hk

/-- First path through `(git-[a-z-]+)` on a subcommand followed by a space. -/
theorem matchRe_reCommand {α : Type} (n : Nat) (d : Char) (u t : Str) (caps : Caps)
    (k : Str → Caps → Option α) (r : α) (hd : clsLowerDash d = true)
    (hu : ∀ c ∈ u, clsLowerDash c = true)
    (hk : k (' ' :: t) (setCap caps 1 ('g' :: 'i' :: 't' :: '-' :: d :: u)) = some r) :
    matchRe n reCommand ('g' :: 'i' :: 't' :: '-' :: d :: (u ++ ' ' :: t)) caps k = some r := by
  simp only [reCommand, matchRe_group, matchRe_seq, matchRe_lit_cons]
  apply matchRe_plus_run n clsLowerDash d ' ' u _ caps _ r hd hu (by decide)
  have hc : consumed ('g' :: 'i' :: 't' :: '-' :: d :: (u ++ ' ' :: t)) (' ' :: t) =
      'g' :: 'i' :: 't' :: '-' :: d :: u :=
    consumed_append ('g' :: 'i' :: 't' :: '-' :: d :: u) _
  simp only [hc]
  exact hk

/-- First path through `([\w-+@][\w-+.@]*/)` on a namespace followed by a slash. -/
theorem matchRe_reNamespace {α : Type} (n : Nat) (d : Char) (u t : Str) (caps : Caps)
    (k : Str → Caps → Option α) (r : α) (hd : clsNsHead d = true)
    (hu : ∀ c ∈ u, clsNsTail c = true)
    (hk : k t (setCap caps 2 (d :: (u ++ ['/']))) = some r) :
    matchRe n reNamespace (d :: (u ++ '/' :: t)) caps k = some r := by
  simp only [reNamespace, matchRe_group, matchRe_seq]
  rw [matchRe_cls_cons n clsNsHead d _ caps _ hd]
  apply matchRe_star_run n clsNsTail '/' u _ caps _ r hu (by decide)
  have hc : consumed (d :: (u ++ '/' :: t)) t = d :: (u ++ ['/']) := by
    have := consumed_append (d :: (u ++ ['/'])) t
    simpa using this
  simp only [matchRe_lit_cons, hc]
  exact hk

/-- The namespace group cannot match at a name directly followed by `.git'`. -/
theorem matchRe_reNamespace_none {α : Type} (n : Nat) (nm t : Str) (caps : Caps)
    (k : Str → Caps → Option α) (hnm : ∀ c ∈ nm, clsName c = true) :
    matchRe n reNamespace (nm ++ (dotGitQuote ++ t)) caps k = none := by
  cases hm : matchRe n reNamespace (nm ++ (dotGitQuote ++ t)) caps k with
  | none => rfl
  | some r =>
    exfalso
    obtain ⟨t2, c2, hd, _⟩ := matchRe_sound n reNamespace _ caps k r hm
    obtain ⟨ns, hns, hs⟩ := (derives_ns_iff n 2 _ t2).mp hd
    have hx : ∀ c ∈ nm ++ ['.', 'g', 'i', 't'], clsNsTail c = true := by
      intro c hc
      rcases List.mem_append.mp hc with h | h
      · have := hnm c h
        simp only [clsName, clsNsTail, Bool.or_eq_true] at this ⊢
        tauto
      · have hlit : ∀ e ∈ ['.', 'g', 'i', 't'], clsNsTail e = true := by decide
        exact hlit c h
    have hx2 : ∀ c ∈ ns, clsNsTail c = true :=
      fun c hc => (clsNsTail_iff c).mpr (hns.2.1 c hc)
    have heq : (nm ++ ['.', 'g', 'i', 't']) ++ quote :: t = ns ++ '/' :: t2 := by
      rw [← hs]
      simp [dotGitQuote]
    have := (first_outside_unique clsNsTail _ _ _ _ _ _ hx hx2 (by decide) (by decide) heq).2.1
    exact absurd this (by decide)

theorem ne_slash_of_clsNsHead (d : Char) (h : clsNsHead d = true) : d ≠ '/' := by
  rintro rfl
  exact absurd h (by decide)

theorem ne_slash_of_clsName (d : Char) (h : clsName d = true) : d ≠ '/' := by
  rintro rfl
  exact absurd h (by decide)

theorem searchAt_of_match (re : Regex) (n : Nat) (d : Char) (s t : Str) (c : Caps)
    (h : matchRe n re (d :: s) noCaps (fun t c => some (t, c)) = some (t, c)) :
    searchAt re n (d :: s) = some (d :: s, t, c) := by
  simp [searchAt, h]

/-- The match found on `git-<w> '<ns>/<name>.git'`, whatever follows the closing quote. -/
theorem match_with_namespace (n : Nat) (d d1 d2 : Char) (u u1 u2 t : Str)
    (hd : clsLowerDash d = true) (hu : ∀ c ∈ u, clsLowerDash c = true)
    (hd1 : clsNsHead d1 = true) (hu1 : ∀ c ∈ u1, clsNsTail c = true)
    (hd2 : clsName d2 = true) (hu2 : ∀ c ∈ u2, clsName c = true) :
    matchRe n gitCommandRe
      ('g' :: 'i' :: 't' :: '-' :: d :: (u ++ ' ' :: quote ::
        d1 :: (u1 ++ '/' :: d2 :: (u2 ++ (dotGitQuote ++ t)))))
      noCaps (fun t c => some (t, c)) =
    some (t, setCap (setCap (setCap noCaps 1 ('g' :: 'i' :: 't' :: '-' :: d :: u))
      2 (d1 :: (u1 ++ ['/']))) 3 (d2 :: u2)) := by
  unfold gitCommandRe
  rw [matchRe_seq]
  apply matchRe_reCommand n d u _ noCaps _ _ hd hu
  simp only [matchRe_seq, matchRe_lit_cons]
  rw [matchRe_opt_lit_skip n '/' d1 _ _ _ (ne_slash_of_clsNsHead d1 hd1)]
  apply matchRe_opt_first
  apply matchRe_reNamespace n d1 u1 _ _ _ _ hd1 hu1
  exact matchRe_name_dotGit n d2 u2 t _ _ _ hd2 hu2 rfl

/-- The match found on `git-<w> '<name>.git'`, whatever follows the closing quote. -/
theorem match_without_namespace (n : Nat) (d d2 : Char) (u u2 t : Str)
    (hd : clsLowerDash d = true) (hu : ∀ c ∈ u, clsLowerDash c = true)
    (hd2 : clsName d2 = true) (hu2 : ∀ c ∈ u2, clsName c = true) :
    matchRe n gitCommandRe
      ('g' :: 'i' :: 't' :: '-' :: d :: (u ++ ' ' :: quote ::
        d2 :: (u2 ++ (dotGitQuote ++ t))))
      noCaps (fun t c => some (t, c)) =
    some (t, setCap (setCap noCaps 1 ('g' :: 'i' :: 't' :: '-' :: d :: u)) 3 (d2 :: u2)) := by
  unfold gitCommandRe
  rw [matchRe_seq]
  apply matchRe_reCommand n d u _ noCaps _ _ hd hu
  simp only [matchRe_seq, matchRe_lit_cons]
  rw [matchRe_opt_lit_skip n '/' d2 _ _ _ (ne_slash_of_clsName d2 hd2)]
  have hnone : ∀ (caps : Caps) (k : Str → Caps → Option (Str × Caps)),
      matchRe n reNamespace (d2 :: (u2 ++ (dotGitQuote ++ t))) caps k = none :=
    fun caps k => matchRe_reNamespace_none n (d2 :: u2) t caps k (by
      intro c hc
      rcases List.mem_cons.mp hc with h | h
      · rw [h]; exact hd2
      · exact hu2 c h)
  rw [matchRe_opt_skip n reNamespace _ _ _ (hnone _ _)]
  exact matchRe_name_dotGit n d2 u2 t _ _ _ hd2 hu2 rfl

theorem parseGitCommand_with_namespace (sub ns nm : Str) (hsub : IsSubcommand sub)
    (hns : IsNamespace ns) (hnm : IsName nm) :
    parseGitCommand (sub ++ ' ' :: quote :: (ns ++ '/' :: nm ++ dotGitQuote)) =
      (sub, ns ++ '/' :: nm, none) := by
  obtain ⟨w, hne, hw, rfl⟩ := hsub
  obtain ⟨d1, u1, hd1, hu1, rfl⟩ := run_of_isNamespace ns hns
  obtain ⟨d2, u2, hd2, hu2, rfl⟩ := run_of_isName nm hnm
  cases w with
  | nil => exact absurd rfl hne
  | cons d u =>
    have hd : clsLowerDash d = true := (clsLowerDash_iff d).mpr (hw d (List.mem_cons_self _ _))
    have hu : ∀ c ∈ u, clsLowerDash c = true :=
      fun c hc => (clsLowerDash_iff c).mpr (hw c (List.mem_cons_of_mem _ hc))
    have hs : 'g' :: 'i' :: 't' :: '-' :: d :: u ++ ' ' :: quote ::
          (d1 :: u1 ++ '/' :: d2 :: u2 ++ dotGitQuote) =
        'g' :: 'i' :: 't' :: '-' :: d :: (u ++ ' ' :: quote ::
          d1 :: (u1 ++ '/' :: d2 :: (u2 ++ (dotGitQuote ++ [])))) := by simp
    rw [hs, parseGitCommand_of_some _ _ _ _
      (searchAt_of_match _ _ _ _ _ _ (match_with_namespace _ d d1 d2 u u1 u2 [] hd hu hd1 hu1 hd2 hu2))]
    simp [setCap]

theorem parseGitCommand_without_namespace (sub nm : Str) (hsub : IsSubcommand sub)
    (hnm : IsName nm) :
    parseGitCommand (sub ++ ' ' :: quote :: (nm ++ dotGitQuote)) = (sub, nm, none) := by
  obtain ⟨w, hne, hw, rfl⟩ := hsub
  obtain ⟨d2, u2, hd2, hu2, rfl⟩ := run_of_isName nm hnm
  cases w with
  | nil => exact absurd rfl hne
  | cons d u =>
    have hd : clsLowerDash d = true := (clsLowerDash_iff d).mpr (hw d (List.mem_cons_self _ _))
    have hu : ∀ c ∈ u, clsLowerDash c = true :=
      fun c hc => (clsLowerDash_iff c).mpr (hw c (List.mem_cons_of_mem _ hc))
    have hs : 'g' :: 'i' :: 't' :: '-' :: d :: u ++ ' ' :: quote ::
          (d2 :: u2 ++ dotGitQuote) =
        'g' :: 'i' :: 't' :: '-' :: d :: (u ++ ' ' :: quote ::
          d2 :: (u2 ++ (dotGitQuote ++ []))) := by simp
    rw [hs, parseGitCommand_of_some _ _ _ _
      (searchAt_of_match _ _ _ _ _ _ (match_without_namespace _ d d2 u u2 [] hd hu hd2 hu2))]
    simp [setCap, noCaps]

/-! ## The command parser -/

theorem isSubcommand_of_run (w : Str) (hne : w ≠ [])
    (h : ∀ c ∈ w, clsLowerDash c = true) : IsSubcommand ('g' :: 'i' :: 't' :: '-' :: w) :=
  ⟨w, hne, fun c hc => (clsLowerDash_iff c).mp (h c hc), rfl⟩

theorem isRepoPath_head (p : Str) (h : IsRepoPath p) : ∃ d u, p = d :: u ∧ d ≠ '/' := by
  rcases h with h | ⟨ns, nm, hns, _, hp⟩
  · obtain ⟨d, u, hd, _, rfl⟩ := run_of_isName p h
    exact ⟨d, u, rfl, ne_slash_of_clsName d hd⟩
  · obtain ⟨d, u, hd, _, rfl⟩ := run_of_isNamespace ns hns
    exact ⟨d, u ++ '/' :: nm, by simp [hp], ne_slash_of_clsNsHead d hd⟩

/-- In a command of the grammar the first quote is not followed by a slash. -/
theorem not_isGitCommand_of_slash (a b : Str) (ha : ∀ c ∈ a, (c != quote) = true) :
    ¬ IsGitCommand (a ++ quote :: '/' :: b) := by
  rintro ⟨sub, p, ⟨w, _, hw, rfl⟩, hp, hs⟩
  obtain ⟨d, u, rfl, hd⟩ := isRepoPath_head p hp
  have hx : ∀ c ∈ 'g' :: 'i' :: 't' :: '-' :: w ++ [' '], (c != quote) = true := by
    intro c hc
    have hlit : ∀ e ∈ ['g', 'i', 't', '-', ' '], (e != quote) = true := by decide
    simp only [List.cons_append, List.mem_cons, List.mem_append, List.mem_singleton,
      List.not_mem_nil, or_false] at hc
    rcases hc with h | h | h | h | h | h
    · exact hlit c (by simp [h])
    · exact hlit c (by simp [h])
    · exact hlit c (by simp [h])
    · exact hlit c (by simp [h])
    · have hcl := (clsLowerDash_iff c).mpr (hw c h)
      simp only [bne_iff_ne, ne_eq]
      rintro rfl
      exact absurd hcl (by decide)
    · exact hlit c (by simp [h])
  have heq : a ++ quote :: '/' :: b =
      ('g' :: 'i' :: 't' :: '-' :: w ++ [' ']) ++ quote :: (d :: u ++ dotGitQuote) := by
    rw [hs]
    simp
  have := (first_outside_unique (fun c => c != quote) _ _ _ _ _ _ ha hx (by simp) (by simp)
    heq).2.2
  simp only [List.cons_append, List.cons.injEq] at this
  exact hd this.1.symm

/-- C1 fails on the code: `git-upload-pack '/foo.git'`, with a slash after the opening
quote, is not of the form `<sub> '[<ns>/]<name>.git'`, and `parseGitCommand` accepts it. -/
theorem C1_counterexample :
    ¬ IsGitCommand "git-upload-pack '/foo.git'".toList ∧
      parseGitCommand "git-upload-pack '/foo.git'".toList =
        ("git-upload-pack".toList, "foo".toList, none) :=
  ⟨not_isGitCommand_of_slash "git-upload-pack ".toList "foo.git'".toList (by decide),
    by decide⟩

/-- C1 as amended: a text that contains no command of the form
`<sub> '[/][<ns>/]<name>.git'` anywhere is refused: `parseGitCommand` returns its error
with an empty command and an empty name. -/
theorem C1_parseGitCommand_rejects (s : Str) (h : ¬ ContainsGitCommand s) :
    parseGitCommand s = ([], [], some Error.weirdCommand) := by
  cases hs : searchAt gitCommandRe s.length s with
  | none => exact parseGitCommand_of_none s hs
  | some r =>
    obtain ⟨st, t, c⟩ := r
    exact absurd ((parseGitCommand_err_iff s).mp (by rw [parseGitCommand_of_some s st t c hs])) h

/-- C1 as amended, at the unquoted command `git-upload-pack foo/bar.git`. -/
theorem C1_parseGitCommand_rejects_witness :
    parseGitCommand "git-upload-pack foo/bar.git".toList = ([], [], some Error.weirdCommand) :=
  C1_parseGitCommand_rejects "git-upload-pack foo/bar.git".toList
    (fun hc => absurd ((parseGitCommand_err_iff _).mpr hc) (by decide))

/-- C4 fails on the code: `git-upload-pack 'myteam/proj.git'` is a command of the grammar
and the name returned for it is not `myteam/proj.git`. -/
theorem C4_counterexample :
    IsGitCommand "git-upload-pack 'myteam/proj.git'".toList ∧
      parseGitCommand "git-upload-pack 'myteam/proj.git'".toList ≠
        ("git-upload-pack".toList, "myteam/proj.git".toList, none) :=
  ⟨⟨"git-upload-pack".toList, "myteam/proj".toList,
      isSubcommand_of_run "upload-pack".toList (by decide) (by decide),
      Or.inr ⟨"myteam".toList, "proj".toList,
        isNamespace_of_run 'm' "yteam".toList (by decide) (by decide),
        isName_of_run 'p' "roj".toList (by decide) (by decide), rfl⟩, rfl⟩,
    by decide⟩

/-- C4 as amended: on a command `<sub> '<ns>/<name>.git'` of the grammar `parseGitCommand`
returns no error, the subcommand and the path `<ns>/<name>` without the `.git` suffix; on
`<sub> '<name>.git'` it returns the subcommand and `<name>`; for
`git-upload-pack 'myteam/proj.git'` the result is `git-upload-pack` and `myteam/proj`. -/
theorem C4_parseGitCommand_valid (sub ns nm : Str) (hsub : IsSubcommand sub)
    (hns : IsNamespace ns) (hnm : IsName nm) :
    parseGitCommand (sub ++ ' ' :: quote :: (ns ++ '/' :: nm ++ dotGitQuote)) =
        (sub, ns ++ '/' :: nm, none) ∧
      parseGitCommand (sub ++ ' ' :: quote :: (nm ++ dotGitQuote)) = (sub, nm, none) ∧
      parseGitCommand "git-upload-pack 'myteam/proj.git'".toList =
        ("git-upload-pack".toList, "myteam/proj".toList, none) :=
  ⟨parseGitCommand_with_namespace sub ns nm hsub hns hnm,
    parseGitCommand_without_namespace sub nm hsub hnm, by decide⟩

/-- C4 as amended, at `git-receive-pack`, namespace `team`, name `proj`. -/
theorem C4_parseGitCommand_valid_witness :
    parseGitCommand ("git-receive-pack".toList ++ ' ' :: quote ::
          ("team".toList ++ '/' :: "proj".toList ++ dotGitQuote)) =
        ("git-receive-pack".toList, "team".toList ++ '/' :: "proj".toList, none) ∧
      parseGitCommand ("git-receive-pack".toList ++ ' ' :: quote ::
          ("proj".toList ++ dotGitQuote)) = ("git-receive-pack".toList, "proj".toList, none) ∧
      parseGitCommand "git-upload-pack 'myteam/proj.git'".toList =
        ("git-upload-pack".toList, "myteam/proj".toList, none) :=
  C4_parseGitCommand_valid "git-receive-pack".toList "team".toList "proj".toList
    (isSubcommand_of_run "receive-pack".toList (by decide) (by decide))
    (isNamespace_of_run 't' "eam".toList (by decide) (by decide))
    (isName_of_run 'p' "roj".toList (by decide) (by decide))

/-! ## The rewritten command -/

/-- On success `formatCommand` returns two elements: the text before the only space of
the command string, and the root joined with the parsed name followed by `.git`. -/
theorem formatCommand_ok_shape (root : Str) (pathJoin : Str → Str → Str) (s : Str)
    (out : List Str) (h : formatCommand (.ok root) pathJoin s = (out, none)) :
    (parseGitCommand s).2.2 = none ∧ (split ' ' s).length = 2 ∧
      out = [(split ' ' s).getD 0 [],
        pathJoin root ((parseGitCommand s).2.1 ++ ".git".toList)] := by
  unfold formatCommand at h
  rcases hp : parseGitCommand s with ⟨cmd, name, err⟩
  rw [hp] at h
  cases err with
  | some e => simp at h
  | none =>
    simp only at h
    by_cases hl : (split ' ' s).length = 2
    · rw [if_neg (by simp [hl])] at h
      simp only [Prod.mk.injEq, and_true] at h
      refine ⟨rfl, hl, ?_⟩
      rw [← h]
      match hsp : split ' ' s, hl with
      | [a, b], _ => simp
    · rw [if_pos hl] at h
      simp at h

/-- C5 at the command `xgit-upload-pack 'foo.git'`: `formatCommand` succeeds with the
first element `xgit-upload-pack`, although the subcommand that `parseGitCommand` extracts
from the same text is `git-upload-pack`. -/
theorem C5_formatCommand_first_element (pathJoin : Str → Str → Str) (root : Str) :
    formatCommand (.ok root) pathJoin "xgit-upload-pack 'foo.git'".toList =
        (["xgit-upload-pack".toList, pathJoin root "foo.git".toList], none) ∧
      (parseGitCommand "xgit-upload-pack 'foo.git'".toList).1 = "git-upload-pack".toList := by
  have hp : parseGitCommand "xgit-upload-pack 'foo.git'".toList =
      ("git-upload-pack".toList, "foo".toList, none) := by decide
  have hsp : split ' ' "xgit-upload-pack 'foo.git'".toList =
      ["xgit-upload-pack".toList, [quote, 'f', 'o', 'o', '.', 'g', 'i', 't', quote]] := by decide
  refine ⟨?_, by rw [hp]⟩
  unfold formatCommand
  rw [hp]
  simp only [hsp]
  rfl

/-! ## Access updates -/

/-- C10 on the code: once the client is built, `GrantAccess` and `RevokeAccess` read the
field `Matched` of an `info` that is still nil, for every list of repository names, every
list of user names and both values of `readOnly`: the call panics and returns no error
value. -/
theorem C10_access_update_panics (rNames uNames : List Str) (readOnly : Bool) :
    GrantAccess rNames uNames readOnly = Outcome.panicked ∧
      RevokeAccess rNames uNames readOnly = Outcome.panicked := by
  cases readOnly <;> exact ⟨rfl, rfl⟩

/-! ## `Get` -/

theorem Get_of_request_error (host : RepositoryHost) (name : Str) (e : Error)
    (h : host.getRepository "INFRA".toList name = .error e) :
    Get host name = .returned (zeroRepository, some e) := by
  unfold Get
  simp only [Client, h]

theorem Get_of_decode_error (host : RepositoryHost) (name response : Str) (e : Error)
    (h1 : host.getRepository "INFRA".toList name = .ok response)
    (h2 : host.getRepositoryResponse response = .error e) :
    Get host name = .returned (zeroRepository, some e) := by
  unfold Get
  simp only [Client, h1, h2]

theorem Get_of_short_links (host : RepositoryHost) (name response : Str)
    (repo : BitbucketRepository)
    (h1 : host.getRepository "INFRA".toList name = .ok response)
    (h2 : host.getRepositoryResponse response = .ok repo)
    (h3 : repo.Clone.length < 2) : Get host name = .panicked := by
  unfold Get
  simp only [Client, h1, h2]
  rcases hc : repo.Clone with _ | ⟨l0, _ | ⟨l1, t⟩⟩
  · rfl
  · rfl
  · exfalso
    rw [hc] at h3
    simp only [List.length_cons] at h3
    omega

theorem Get_of_two_links (host : RepositoryHost) (name response : Str)
    (repo : BitbucketRepository) (l0 l1 : CloneLink) (t : List CloneLink)
    (h1 : host.getRepository "INFRA".toList name = .ok response)
    (h2 : host.getRepositoryResponse response = .ok repo)
    (h3 : repo.Clone = l0 :: l1 :: t) :
    Get host name = .returned
      ({ Name := repo.Name, Users := [], ReadOnlyUsers := [], IsPublic := repo.Public,
         roURL := l0.Href, rwURL := l1.Href }, none) := by
  unfold Get
  simp only [Client, h1, h2, h3]
  simp [zeroRepository]

/-- C11 on the code: when the remote host answers the metadata request for `nope` with
the not-found failure `mgo.ErrNotFound`, `Get` returns that raw error, which is not
`ErrRepositoryNotFound`. -/
theorem C11_Get_not_found_raw_error (decode : Str → Except Error BitbucketRepository) :
    Get ⟨fun _ _ => .error mgoErrNotFound, decode⟩ "nope".toList =
        .returned (zeroRepository, some mgoErrNotFound) ∧
      mgoErrNotFound ≠ Error.repositoryNotFound :=
  ⟨Get_of_request_error _ _ _ rfl, by decide⟩

/-- C16 on the code: a response that is returned without error and decodes into a
repository with a single clone link makes `Get` panic at `Links.Clone[1]`; with no clone
link it panics at `Links.Clone[0]`. -/
theorem C16_Get_panics_on_short_link_list :
    Get ⟨fun _ _ => .ok "body".toList,
        fun _ => .ok ⟨"proj".toList, false,
          [⟨"https://host/scm/infra/proj.git".toList, "http".toList⟩]⟩⟩ "proj".toList =
        .panicked ∧
      Get ⟨fun _ _ => .ok "body".toList, fun _ => .ok ⟨"proj".toList, false, []⟩⟩
        "proj".toList = .panicked := by
  constructor
  · exact Get_of_short_links _ _ _ _ rfl rfl (by decide)
  · exact Get_of_short_links _ _ _ _ rfl rfl (by decide)

/-! ## `getUserOr404` -/

theorem getUserOr404_of_found (host : UserHost) (name : Str) (h : host.getUser name = none) :
    getUserOr404 host name = ({ Name := [] }, none) := by
  unfold getUserOr404
  simp only [Client, h]

/-- C15 on the code: for the user `umi` that the remote host finds, `getUserOr404` returns
a nil error and the zero user, whose `Name` is empty and not `umi`. -/
theorem C15_getUserOr404_zero_user (errorText : Error → Str) :
    getUserOr404 ⟨fun _ => none, errorText⟩ "umi".toList = ({ Name := [] }, none) ∧
      (getUserOr404 ⟨fun _ => none, errorText⟩ "umi".toList).1.Name ≠ "umi".toList := by
  have h := getUserOr404_of_found ⟨fun _ => none, errorText⟩ "umi".toList rfl
  refine ⟨h, ?_⟩
  rw [h]
  decide

/-! ## Clone operations -/

theorem exists_of_found (fs : Fs) (path : Str) (h : fs.stat path = .found) :
    exists_ fs path = (true, none) := by
  unfold exists_
  rw [h]

theorem exists_of_not_found (fs : Fs) (path : Str) (h : fs.stat path ≠ .found) :
    ((exists_ fs path).2.isSome || !(exists_ fs path).1) = true := by
  unfold exists_
  cases hs : fs.stat path with
  | found => exact absurd hs h
  | notExist => rfl
  | failed e => rfl

theorem cloneCases_of_guards (sys : Sys) (fs : Fs) (op : CloneOp) (cloneDir : Str)
    (mk : Str → Cmd) :
    CloneCases sys fs op cloneDir mk
      (match sys.lookPath "git".toList with
      | .error err => { err := some (.gitNotFound op cloneDir err), fs := fs, ran := [] }
      | .ok gitPath =>
        match exists_ fs cloneDir with
        | (cloneExists, err) =>
          if err.isSome || !cloneExists then
            { err := some (.cloneDoesNotExist op cloneDir), fs := fs, ran := [] }
          else runGit sys fs op cloneDir (mk gitPath)) := by
  unfold CloneCases
  cases hl : sys.lookPath "git".toList with
  | error e => exact Or.inl ⟨e, rfl, rfl⟩
  | ok p =>
    refine Or.inr ?_
    by_cases hs : fs.stat cloneDir = .found
    · refine Or.inr ⟨p, rfl, hs, ?_⟩
      simp only [exists_of_found fs cloneDir hs, Option.isSome_none, Bool.not_true,
        Bool.or_self, Bool.false_eq_true, if_false]
    · refine Or.inl ⟨p, rfl, hs, ?_⟩
      have := exists_of_not_found fs cloneDir hs
      simp only [this, if_true]

theorem checkoutCmd_eq (p cloneDir branch : Str) (isNew : Bool) :
    checkoutCmd p cloneDir branch isNew =
      gitInClone p cloneDir
        ("checkout".toList :: (if isNew then ["-b".toList, branch] else [branch])) none := by
  cases isNew <;> rfl

theorem addAllCmd_eq (p cloneDir : Str) :
    addAllCmd p cloneDir = gitInClone p cloneDir ["add".toList, "--all".toList] none := rfl

theorem commitCmd_eq (environ : List Str) (p cloneDir message : Str)
    (author committer : GitUser) :
    commitCmd environ p cloneDir message author committer =
      gitInClone p cloneDir
        ["commit".toList, "-m".toList, message, "--author".toList,
          author.Name ++ " <".toList ++ author.Email ++ ">".toList,
          "--allow-empty-message".toList]
        (some (environ ++ ["GIT_COMMITTER_NAME=".toList ++ committer.Name,
          "GIT_COMMITTER_EMAIL=".toList ++ committer.Email])) := by
  unfold commitCmd gitInClone Command GitUser.String
  simp only [List.append_assoc, List.singleton_append]

theorem pushCmd_eq (p cloneDir branch : Str) :
    pushCmd p cloneDir branch =
      gitInClone p cloneDir ["push".toList, "origin".toList, branch] none := rfl

theorem Checkout_cases (sys : Sys) (fs : Fs) (cloneDir branch : Str) (isNew : Bool) :
    CloneCases sys fs .checkout cloneDir
      (fun p => gitInClone p cloneDir
        ("checkout".toList :: (if isNew then ["-b".toList, branch] else [branch])) none)
      (Checkout sys fs cloneDir branch isNew) := by
  have h := cloneCases_of_guards sys fs .checkout cloneDir
    (fun p => checkoutCmd p cloneDir branch isNew)
  simp only [checkoutCmd_eq] at h
  simp only [Checkout, checkoutCmd_eq]
  exact h

theorem AddAll_cases (sys : Sys) (fs : Fs) (cloneDir : Str) :
    CloneCases sys fs .addAll cloneDir
      (fun p => gitInClone p cloneDir ["add".toList, "--all".toList] none)
      (AddAll sys fs cloneDir) :=
  cloneCases_of_guards sys fs .addAll cloneDir (fun p => addAllCmd p cloneDir)

theorem Commit_cases (sys : Sys) (fs : Fs) (cloneDir message : Str)
    (author committer : GitUser) :
    CloneCases sys fs .commit cloneDir
      (fun p => gitInClone p cloneDir
        ["commit".toList, "-m".toList, message, "--author".toList,
          author.Name ++ " <".toList ++ author.Email ++ ">".toList,
          "--allow-empty-message".toList]
        (some (sys.environ ++ ["GIT_COMMITTER_NAME=".toList ++ committer.Name,
          "GIT_COMMITTER_EMAIL=".toList ++ committer.Email])))
      (Commit sys fs cloneDir message author committer) := by
  have h := cloneCases_of_guards sys fs .commit cloneDir
    (fun p => commitCmd sys.environ p cloneDir message author committer)
  simp only [commitCmd_eq] at h
  simp only [Commit, commitCmd_eq]
  exact h

theorem Push_cases (sys : Sys) (fs : Fs) (cloneDir branch : Str) :
    CloneCases sys fs .push cloneDir
      (fun p => gitInClone p cloneDir ["push".toList, "origin".toList, branch] none)
      (Push sys fs cloneDir branch) :=
  cloneCases_of_guards sys fs .push cloneDir (fun p => pushCmd p cloneDir branch)

theorem runGit_fs (sys : Sys) (fs : Fs) (op : CloneOp) (cloneDir : Str) (cmd : Cmd) :
    (runGit sys fs op cloneDir cmd).fs = (sys.combinedOutput cmd fs).fsAfter fs := by
  unfold runGit
  rcases sys.combinedOutput cmd fs with e | ⟨out, _ | e, fs1⟩ <;> rfl

theorem runGit_err (sys : Sys) (fs : Fs) (op : CloneOp) (cloneDir : Str) (cmd : Cmd) :
    (runGit sys fs op cloneDir cmd).err = none ∨
      ∃ e out, (runGit sys fs op cloneDir cmd).err = some (.gitFailed op cloneDir e out) := by
  unfold runGit
  rcases sys.combinedOutput cmd fs with e | ⟨out, _ | e, fs1⟩
  · exact Or.inr ⟨e, [], rfl⟩
  · exact Or.inl rfl
  · exact Or.inr ⟨e, out, rfl⟩

theorem guardsClone_of_cases (sys : Sys) (fs : Fs) (op : CloneOp) (cloneDir : Str)
    (mk : Str → Cmd) (res : OpResult) (h : CloneCases sys fs op cloneDir mk res) :
    GuardsClone sys fs op cloneDir mk res := by
  rcases h with ⟨e, hl, rfl⟩ | ⟨p, hl, hs, rfl⟩ | ⟨p, hl, hs, rfl⟩
  · refine ⟨?_, ?_⟩
    · intro e2 h2
      rw [hl] at h2
      cases h2
      exact ⟨rfl, rfl, rfl⟩
    · intro p h2
      rw [hl] at h2
      cases h2
  · refine ⟨?_, ?_⟩
    · intro e h2
      rw [hl] at h2
      cases h2
    · intro _ _
      exact ⟨⟨fun _ => hs, fun _ => rfl⟩, fun _ => ⟨rfl, rfl⟩, fun h => absurd h hs⟩
  · refine ⟨?_, ?_⟩
    · intro e h2
      rw [hl] at h2
      cases h2
    · intro q h2
      rw [hl] at h2
      cases h2
      refine ⟨⟨?_, fun h => absurd hs h⟩, fun h => absurd hs h, fun _ => ⟨?_, ?_, ?_⟩⟩
      · intro herr
        rcases runGit_err sys fs op cloneDir (mk p) with h0 | ⟨e, out, h0⟩
        · rw [h0] at herr
          cases herr
        · rw [h0] at herr
          cases herr
      · intro e ho
        unfold runGit
        rw [ho]
        exact ⟨rfl, rfl, rfl⟩
      · intro out e fs1 ho
        unfold runGit
        rw [ho]
        exact ⟨rfl, rfl, rfl⟩
      · intro out fs1 ho
        unfold runGit
        rw [ho]
        exact ⟨rfl, rfl, rfl⟩

theorem stat_after_of_cases (sys : Sys) (fs : Fs) (op : CloneOp) (cloneDir : Str)
    (mk : Str → Cmd) (res : OpResult) (h : CloneCases sys fs op cloneDir mk res)
    (hdir : fs.stat cloneDir = .found)
    (hkeep : ∀ p, sys.lookPath "git".toList = .ok p →
      ((sys.combinedOutput (mk p) fs).fsAfter fs).stat cloneDir = .found) :
    res.fs.stat cloneDir = .found := by
  rcases h with ⟨e, _, rfl⟩ | ⟨p, _, _, rfl⟩ | ⟨p, hl, _, rfl⟩
  · exact hdir
  · exact hdir
  · rw [runGit_fs]
    exact hkeep p hl

theorem RemoveAll_stat_self (path : Str) (fs : Fs) :
    (RemoveAll path fs).stat path = .notExist := by
  simp [RemoveAll]

theorem TempClone_of_git_missing (sys : Sys) (tempDir : Str) (fs : Fs) (repo : Str)
    (e : Error) (h : sys.lookPath "git".toList = .error e) :
    (TempClone sys tempDir fs repo).err = some (.tempCloneGit repo e) ∧
      (TempClone sys tempDir fs repo).cloneDir = [] ∧
      (TempClone sys tempDir fs repo).cleanUp.isSome = false ∧
      (TempClone sys tempDir fs repo).fs = fs := by
  unfold TempClone
  rw [h]
  exact ⟨rfl, rfl, rfl, rfl⟩

/-- With `git` resolved and a temporary directory created, `TempClone` succeeds for every
repository name: the remote host is not consulted. -/
theorem TempClone_of_tempDir (sys : Sys) (tempDir : Str) (fs : Fs) (repo p d : Str)
    (hgit : sys.lookPath "git".toList = .ok p)
    (htmp : sys.tempDir tempDir "gandalf_clone".toList fs = .ok d) :
    (TempClone sys tempDir fs repo).err = none ∧
      (TempClone sys tempDir fs repo).cloneDir = d ∧
      (TempClone sys tempDir fs repo).cleanUp.isSome = true ∧
      (TempClone sys tempDir fs repo).fs.stat d = .found := by
  unfold TempClone
  simp only [hgit, htmp]
  refine ⟨rfl, rfl, rfl, ?_⟩
  simp [Fs.mkdir]

theorem TempClone_cleanUp_removes (sys : Sys) (tempDir : Str) (fs : Fs) (repo : Str)
    (f : Fs → Fs) (h : (TempClone sys tempDir fs repo).cleanUp = some f) (fs1 : Fs) :
    (f fs1).stat (TempClone sys tempDir fs repo).cloneDir = .notExist := by
  unfold TempClone at h ⊢
  cases hl : sys.lookPath "git".toList with
  | error e =>
    rw [hl] at h
    cases h
  | ok p =>
    rw [hl] at h
    cases ht : sys.tempDir tempDir "gandalf_clone".toList fs with
    | error e =>
      simp only [ht, Option.isSome_none, Bool.not_true, Bool.or_self, Bool.false_eq_true,
        if_false] at h
      cases h
    | ok d =>
      simp only [ht, Option.isSome_none, Bool.not_true, Bool.or_self, Bool.false_eq_true,
        if_false, Option.some.injEq] at h ⊢
      subst h
      exact RemoveAll_stat_self d fs1

/-- C12 fails on the code: the clone directory exists, the git process of `Checkout`,
`Commit` and `Push` fails without touching the filesystem, and the directory is still
there once each operation has returned. -/
theorem C12_counterexample :
    (oneDirFs "/tmp/gandalf_clone1".toList).stat "/tmp/gandalf_clone1".toList = .found ∧
      (Checkout failingGitSys (oneDirFs "/tmp/gandalf_clone1".toList)
          "/tmp/gandalf_clone1".toList "topic".toList false).err ≠ none ∧
      (Checkout failingGitSys (oneDirFs "/tmp/gandalf_clone1".toList)
          "/tmp/gandalf_clone1".toList "topic".toList false).fs.stat
          "/tmp/gandalf_clone1".toList = .found ∧
      (Commit failingGitSys (oneDirFs "/tmp/gandalf_clone1".toList)
          "/tmp/gandalf_clone1".toList "msg".toList ⟨[], [], []⟩ ⟨[], [], []⟩).err ≠ none ∧
      (Commit failingGitSys (oneDirFs "/tmp/gandalf_clone1".toList)
          "/tmp/gandalf_clone1".toList "msg".toList ⟨[], [], []⟩ ⟨[], [], []⟩).fs.stat
          "/tmp/gandalf_clone1".toList = .found ∧
      (Push failingGitSys (oneDirFs "/tmp/gandalf_clone1".toList)
          "/tmp/gandalf_clone1".toList "topic".toList).err ≠ none ∧
      (Push failingGitSys (oneDirFs "/tmp/gandalf_clone1".toList)
          "/tmp/gandalf_clone1".toList "topic".toList).fs.stat
          "/tmp/gandalf_clone1".toList = .found := by
  decide

/-- C12 as amended: `Checkout`, `Commit` and `Push` remove nothing themselves.  When the
clone directory exists at the call and the one git command that the operation runs
leaves it in place (or no process is started), the directory is still present once the
operation has returned, whether it failed or not; it is absent once the `cleanUp`
function returned by `TempClone` for that directory has been run. -/
theorem C12_clone_dir_kept_until_cleanUp (sys : Sys) (fs : Fs) (cloneDir branch message : Str)
    (isNew : Bool) (author committer : GitUser)
    (hdir : fs.stat cloneDir = .found) :
    ((∀ p, sys.lookPath "git".toList = .ok p →
        ((sys.combinedOutput
          (gitInClone p cloneDir
            ("checkout".toList :: (if isNew then ["-b".toList, branch] else [branch])) none)
          fs).fsAfter fs).stat cloneDir = .found) →
      (Checkout sys fs cloneDir branch isNew).fs.stat cloneDir = .found) ∧
    ((∀ p, sys.lookPath "git".toList = .ok p →
        ((sys.combinedOutput
          (gitInClone p cloneDir
            ["commit".toList, "-m".toList, message, "--author".toList,
              author.Name ++ " <".toList ++ author.Email ++ ">".toList,
              "--allow-empty-message".toList]
            (some (sys.environ ++ ["GIT_COMMITTER_NAME=".toList ++ committer.Name,
              "GIT_COMMITTER_EMAIL=".toList ++ committer.Email])))
          fs).fsAfter fs).stat cloneDir = .found) →
      (Commit sys fs cloneDir message author committer).fs.stat cloneDir = .found) ∧
    ((∀ p, sys.lookPath "git".toList = .ok p →
        ((sys.combinedOutput
          (gitInClone p cloneDir ["push".toList, "origin".toList, branch] none)
          fs).fsAfter fs).stat cloneDir = .found) →
      (Push sys fs cloneDir branch).fs.stat cloneDir = .found) ∧
    (∀ (sys0 : Sys) (tempDir : Str) (fs0 : Fs) (repo : Str) (f : Fs → Fs),
      (TempClone sys0 tempDir fs0 repo).cleanUp = some f →
        ∀ fs1, (f fs1).stat (TempClone sys0 tempDir fs0 repo).cloneDir = .notExist) :=
  ⟨fun hkeep => stat_after_of_cases sys fs _ cloneDir _ _
      (Checkout_cases sys fs cloneDir branch isNew) hdir hkeep,
    fun hkeep => stat_after_of_cases sys fs _ cloneDir _ _
      (Commit_cases sys fs cloneDir message author committer) hdir hkeep,
    fun hkeep => stat_after_of_cases sys fs _ cloneDir _ _
      (Push_cases sys fs cloneDir branch) hdir hkeep,
    fun sys0 tempDir fs0 repo f h fs1 => TempClone_cleanUp_removes sys0 tempDir fs0 repo f h fs1⟩

/-- C12 as amended, at a system whose git processes fail and a filesystem that holds the
clone directory. -/
theorem C12_clone_dir_kept_until_cleanUp_witness :
    (Checkout failingGitSys (oneDirFs "/tmp/gandalf_clone1".toList)
        "/tmp/gandalf_clone1".toList "topic".toList true).fs.stat
        "/tmp/gandalf_clone1".toList = .found ∧
      (Commit failingGitSys (oneDirFs "/tmp/gandalf_clone1".toList)
        "/tmp/gandalf_clone1".toList "msg".toList ⟨[], [], []⟩ ⟨[], [], []⟩).fs.stat
        "/tmp/gandalf_clone1".toList = .found ∧
      (Push failingGitSys (oneDirFs "/tmp/gandalf_clone1".toList)
        "/tmp/gandalf_clone1".toList "topic".toList).fs.stat
        "/tmp/gandalf_clone1".toList = .found :=
  have h := C12_clone_dir_kept_until_cleanUp failingGitSys
    (oneDirFs "/tmp/gandalf_clone1".toList) "/tmp/gandalf_clone1".toList "topic".toList
    "msg".toList true ⟨[], [], []⟩ ⟨[], [], []⟩ (by decide)
  have hfound : (oneDirFs "/tmp/gandalf_clone1".toList).stat "/tmp/gandalf_clone1".toList =
      .found := by decide
  ⟨h.1 (fun _ _ => hfound), h.2.1 (fun _ _ => hfound), h.2.2.1 (fun _ _ => hfound)⟩

/-- C13 fails on the code, both ways: with `git` not found and the clone directory
missing, `Checkout` returns the lookup error and not "Clone does not exist"; with `git`
found and `os.Stat` failing for another reason than not-exist, it returns "Clone does not
exist". -/
theorem C13_counterexample :
    (emptyFs.stat "/tmp/gone".toList = .notExist ∧
      (Checkout noGitSys emptyFs "/tmp/gone".toList "topic".toList false).err =
        some (.gitNotFound .checkout "/tmp/gone".toList (.external 2))) ∧
    ((deniedFs "/tmp/locked".toList).stat "/tmp/locked".toList = .failed (.external 13) ∧
      (Checkout failingGitSys (deniedFs "/tmp/locked".toList) "/tmp/locked".toList
        "topic".toList false).err = some (.cloneDoesNotExist .checkout "/tmp/locked".toList)) := by
  decide

/-- C13 as amended: each of `Checkout`, `AddAll`, `Commit` and `Push` first resolves
`git` and, when that fails, returns the lookup error, checks nothing and starts no
process; with `git` resolved it returns its "Clone does not exist" error exactly when
`os.Stat` does not find the clone directory (the directory is missing or the check itself
fails), and then starts no process; when the directory is found it calls
`CombinedOutput` once, on its own git command with the clone directory as working
directory, and a failure of that call (no process started, or git exits non-zero) is a
different error that carries the cause and the output. -/
theorem C13_clone_guards (sys : Sys) (fs : Fs) (cloneDir branch message : Str) (isNew : Bool)
    (author committer : GitUser) :
    GuardsClone sys fs .checkout cloneDir
        (fun p => gitInClone p cloneDir
          ("checkout".toList :: (if isNew then ["-b".toList, branch] else [branch])) none)
        (Checkout sys fs cloneDir branch isNew) ∧
      GuardsClone sys fs .addAll cloneDir
        (fun p => gitInClone p cloneDir ["add".toList, "--all".toList] none)
        (AddAll sys fs cloneDir) ∧
      GuardsClone sys fs .commit cloneDir
        (fun p => gitInClone p cloneDir
          ["commit".toList, "-m".toList, message, "--author".toList,
            author.Name ++ " <".toList ++ author.Email ++ ">".toList,
            "--allow-empty-message".toList]
          (some (sys.environ ++ ["GIT_COMMITTER_NAME=".toList ++ committer.Name,
            "GIT_COMMITTER_EMAIL=".toList ++ committer.Email])))
        (Commit sys fs cloneDir message author committer) ∧
      GuardsClone sys fs .push cloneDir
        (fun p => gitInClone p cloneDir ["push".toList, "origin".toList, branch] none)
        (Push sys fs cloneDir branch) :=
  ⟨guardsClone_of_cases _ _ _ _ _ _ (Checkout_cases sys fs cloneDir branch isNew),
    guardsClone_of_cases _ _ _ _ _ _ (AddAll_cases sys fs cloneDir),
    guardsClone_of_cases _ _ _ _ _ _ (Commit_cases sys fs cloneDir message author committer),
    guardsClone_of_cases _ _ _ _ _ _ (Push_cases sys fs cloneDir branch)⟩

/-- C13 as amended, at three concrete runs of `Checkout` with `git` found: a missing
clone directory gives "Clone does not exist" and no process; a directory that is found
and a git process that fails give the error of the process, with the one command
`git checkout -b topic` started in the directory; a call that starts no process gives
its error and an empty list of processes. -/
theorem C13_clone_guards_witness :
    ((Checkout failingGitSys emptyFs "/tmp/gone".toList "topic".toList true).err =
        some (.cloneDoesNotExist .checkout "/tmp/gone".toList) ∧
      (Checkout failingGitSys emptyFs "/tmp/gone".toList "topic".toList true).ran = []) ∧
    ((Checkout failingGitSys (oneDirFs "/tmp/c1".toList) "/tmp/c1".toList "topic".toList
          true).err = some (.gitFailed .checkout "/tmp/c1".toList (.external 1) "fatal".toList) ∧
      (Checkout failingGitSys (oneDirFs "/tmp/c1".toList) "/tmp/c1".toList "topic".toList
          true).ran =
        [⟨"/usr/bin/git".toList,
          ["/usr/bin/git".toList, "checkout".toList, "-b".toList, "topic".toList], none,
          "/tmp/c1".toList⟩]) ∧
    ((Checkout noStartSys (oneDirFs "/tmp/c1".toList) "/tmp/c1".toList "topic".toList
          true).err = some (.gitFailed .checkout "/tmp/c1".toList (.external 20) []) ∧
      (Checkout noStartSys (oneDirFs "/tmp/c1".toList) "/tmp/c1".toList "topic".toList
          true).ran = []) :=
  have h1 := (C13_clone_guards failingGitSys emptyFs "/tmp/gone".toList "topic".toList
    "msg".toList true ⟨[], [], []⟩ ⟨[], [], []⟩).1.2 _ rfl
  have h2 := ((C13_clone_guards failingGitSys (oneDirFs "/tmp/c1".toList) "/tmp/c1".toList
    "topic".toList "msg".toList true ⟨[], [], []⟩ ⟨[], [], []⟩).1.2 _ rfl).2.2
    (by decide)
  have h3 := ((C13_clone_guards noStartSys (oneDirFs "/tmp/c1".toList) "/tmp/c1".toList
    "topic".toList "msg".toList true ⟨[], [], []⟩ ⟨[], [], []⟩).1.2 _ rfl).2.2
    (by decide)
  ⟨⟨h1.1.mpr (by decide), (h1.2.1 (by decide)).1⟩,
    ⟨(h2.2.1 _ _ _ rfl).1, (h2.2.1 _ _ _ rfl).2.1⟩,
    ⟨(h3.1 _ rfl).1, (h3.1 _ rfl).2.1⟩⟩

/-- C14 on the code: with `git` resolved, `TempClone` creates a temporary directory and
returns it with a cleanup function and no error for every repository name; the remote
host is never asked whether the repository exists (`repoExists := true`), so the name
`nope` of a repository unknown there succeeds too. -/
theorem C14_TempClone_unknown_repository (repo : Str) :
    (TempClone failingGitSys [] emptyFs repo).err = none ∧
      (TempClone failingGitSys [] emptyFs repo).cloneDir = "/tmp/gandalf_clone1".toList ∧
      (TempClone failingGitSys [] emptyFs repo).cleanUp.isSome = true ∧
      (TempClone failingGitSys [] emptyFs repo).fs.stat "/tmp/gandalf_clone1".toList = .found ∧
      (TempClone failingGitSys [] emptyFs "nope".toList).err = none :=
  have h := TempClone_of_tempDir failingGitSys [] emptyFs repo "/usr/bin/git".toList
    "/tmp/gandalf_clone1".toList rfl rfl
  ⟨h.1, h.2.1, h.2.2.1, h.2.2.2,
    (TempClone_of_tempDir failingGitSys [] emptyFs "nope".toList "/usr/bin/git".toList
      "/tmp/gandalf_clone1".toList rfl rfl).1⟩

end Gandalf
